import Mathlib

/-!
Verification of the `led-strip-animations` LED rendering engine.

This file shallowly embeds the parts of the Rust source that the checked
properties are about, and proves (or refutes) each property against the
embedding:

* `src/color_cache.rs` — the interval-merging color cache (`SingleColor`,
  `ColorCache` and their operations);
* `src/indexing.rs` — the composable index-mapping algebra (`Indexing`
  combinators over a base range, slice or array);
* `src/animation/running_light.rs` / `src/animation/iterators.rs` — the
  border-aware window iterator `ActiveRangeIter`;
* `src/timeline.rs` and `src/processing.rs` — the timeline query iterator
  and the tick processors.

Modelling conventions: Rust `u16`/`u32`/`usize` values are embedded as `Nat`
and `isize`/`i32` as `Int`.  Where an unsigned subtraction, addition or
conversion in the source can overflow (a panic when the crate is compiled
with overflow checks), the embedding makes the panic explicit (see
`IdxRes.panic` and `StepRes.panic`); truncated `Nat` subtraction is only used
where the source provably cannot underflow, or where a well-formedness
hypothesis of the theorem rules the underflow out (noted at the definition).
LED ids in the cache model are plain `Nat`; the `led_id + 1` successor
arithmetic of the source is exact here (the source would overflow only at
the unused id 65535).
-/

/-- HSV color value, from `src/color.rs` (`pub struct HSVColor { h: u16, s: u8, v: u8 }`).
Only equality of colors matters to the cache; the constructor range asserts of
the source are irrelevant here. -/
structure HSVColor where
  h : Nat
  s : Nat
  v : Nat
deriving DecidableEq, Repr

/-- Contiguous LED-id range `start..stop` (Rust `Range<LedId>`, half-open). -/
structure RangeN where
  start : Nat
  stop : Nat
deriving DecidableEq, Repr

/-- Rust `Range::contains(&x)`: `start <= x < stop`. -/
def RangeN.mem (r : RangeN) (x : Nat) : Prop := r.start ≤ x ∧ x < r.stop

instance (r : RangeN) (x : Nat) : Decidable (r.mem x) := by
  unfold RangeN.mem; infer_instance

/-- Rust `Range::len()` (0 when the range is backwards or empty). -/
def RangeN.rlen (r : RangeN) : Nat := r.stop - r.start

/-- Number of times `x` occurs in the range: 1 when contained, else 0. -/
def RangeN.cnt (r : RangeN) (x : Nat) : Nat := if r.mem x then 1 else 0

/-- Bucket of LEDs holding one color, from `src/color_cache.rs`
(`struct SingleColor { ranges, single_led, color }`). -/
structure SingleColor where
  ranges : List RangeN
  single_led : List Nat
  color : HSVColor
deriving DecidableEq, Repr

/-- `SingleColor::new`. -/
def SingleColor.new (color : HSVColor) : SingleColor :=
  { ranges := [], single_led := [], color := color }

/-- `SingleColor::contains_led_id`: some range contains the id, or it is a single. -/
def SingleColor.contains_led_id (b : SingleColor) (led : Nat) : Bool :=
  b.ranges.any (fun r => decide (r.mem led)) || b.single_led.contains led

/-- The loop in `SingleColor::cache_led` that looks for the first range
extendable by `led` (`range.start == led + 1` extends at the front,
`range.end == led` extends at the back) and performs the in-place update. -/
def extendFirstRange : List RangeN → Nat → Option (List RangeN)
  | [], _ => none
  | r :: rs, led =>
    if r.start = led + 1 then some ({ start := led, stop := r.stop } :: rs)
    else if r.stop = led then some ({ start := r.start, stop := led + 1 } :: rs)
    else (extendFirstRange rs led).map (fun rs2 => r :: rs2)

/-- `SingleColor::grouping_single_led`: find the first stored single equal to
`led + 1` (group in front) or, when `led > 0`, to `led - 1` (group behind);
remove it and return the new 2-element range together with the remaining
singles. -/
def groupingSingle : List Nat → Nat → Option (List Nat × RangeN)
  | [], _ => none
  | s :: ss, led =>
    if s = led + 1 then some (ss, { start := led, stop := s + 1 })
    else if led > 0 ∧ s = led - 1 then some (ss, { start := s, stop := led + 1 })
    else (groupingSingle ss led).map (fun p => (s :: p.1, p.2))

/-- `SingleColor::cache_led`: extend an adjacent range, else merge with an
adjacent single into a new range (pushed at the end of `ranges`), else store
as a new single (pushed at the end of `single_led`). -/
def SingleColor.cache_led (b : SingleColor) (led : Nat) : SingleColor :=
  match extendFirstRange b.ranges led with
  | some rs => { b with ranges := rs }
  | none =>
    match groupingSingle b.single_led led with
    | some (ss, r) => { b with single_led := ss, ranges := b.ranges ++ [r] }
    | none => { b with single_led := b.single_led ++ [led] }

/-- `SingleColor::ungroup_leds`: remove the first range containing `led` and
return the two split ranges `[start..led]` and `[led+1..end]` with the
remaining ranges. -/
def ungroupLeds : List RangeN → Nat → Option (List RangeN × RangeN × RangeN)
  | [], _ => none
  | r :: rs, led =>
    if r.mem led then some (rs, { start := r.start, stop := led }, { start := led + 1, stop := r.stop })
    else (ungroupLeds rs led).map (fun p => (r :: p.1, p.2))

/-- The per-split push in `SingleColor::uncache_led`: a length-1 split is
demoted to a single, a longer one is kept as a range, an empty one is dropped. -/
def pushSplit (b : SingleColor) (r : RangeN) : SingleColor :=
  if r.rlen = 1 then { b with single_led := b.single_led ++ [r.start] }
  else if 1 < r.rlen then { b with ranges := b.ranges ++ [r] }
  else b

/-- The single-removal loop in `SingleColor::uncache_led` (`Vec::remove` of
the first occurrence). -/
def removeFirstNat : List Nat → Nat → Option (List Nat)
  | [], _ => none
  | s :: ss, led =>
    if s = led then some ss
    else (removeFirstNat ss led).map (fun ss2 => s :: ss2)

/-- `SingleColor::uncache_led`: split the containing range, else remove the
matching single; the `Bool` reports whether anything was removed. -/
def SingleColor.uncache_led (b : SingleColor) (led : Nat) : SingleColor × Bool :=
  match ungroupLeds b.ranges led with
  | some (rs, r1, r2) => (pushSplit (pushSplit { b with ranges := rs } r1) r2, true)
  | none =>
    match removeFirstNat b.single_led led with
    | some ss => ({ b with single_led := ss }, true)
    | none => (b, false)

/-- `SingleColor::cached_size`: total of range lengths plus singles count. -/
def SingleColor.cached_size (b : SingleColor) : Nat :=
  (b.ranges.map RangeN.rlen).sum + b.single_led.length

/-- Number of occurrences of `x` in the bucket (ranges and singles together);
a specification device, not in the source. -/
def SingleColor.countLed (b : SingleColor) (x : Nat) : Nat :=
  (b.ranges.map (fun r => r.cnt x)).sum + b.single_led.count x

/-- The whole cache: `ColorCache { multi_color_cache: Option<Vec<Box<SingleColor>>> }`. -/
def ColorCache := Option (List SingleColor)
deriving DecidableEq, Repr

/-- `ColorCache::new()`. -/
def ColorCache.new : ColorCache := none

/-- The body of `ColorCache::cache_color` over the bucket vector: find the
first bucket of this color; if it contains the led return its color without
mutation, else cache the led there; with no bucket of this color, push a new
bucket (containing the led) at the end. -/
def cacheColorB : List SingleColor → Nat → HSVColor → Option HSVColor × List SingleColor
  | [], led, c => (none, [(SingleColor.new c).cache_led led])
  | b :: bs, led, c =>
    if b.color = c then
      if b.contains_led_id led then (some b.color, b :: bs)
      else (none, b.cache_led led :: bs)
    else
      let p := cacheColorB bs led c
      (p.1, b :: p.2)

/-- `ColorCache::cache_color` (including `init`, which installs a fresh empty
bucket of the requested color on first use). -/
def ColorCache.cache_color (s : ColorCache) (led : Nat) (c : HSVColor) :
    Option HSVColor × ColorCache :=
  match s with
  | none =>
    let p := cacheColorB [SingleColor.new c] led c
    (p.1, some p.2)
  | some bs =>
    let p := cacheColorB bs led c
    (p.1, some p.2)

/-- The bucket loop of `ColorCache::load_color`. -/
def loadColorB : List SingleColor → Nat → Option HSVColor
  | [], _ => none
  | b :: bs, led => if b.contains_led_id led then some b.color else loadColorB bs led

/-- `ColorCache::load_color`. -/
def ColorCache.load_color (s : ColorCache) (led : Nat) : Option HSVColor :=
  match s with
  | none => none
  | some bs => loadColorB bs led

/-- The bucket loop of `ColorCache::remove_cache`: call `uncache_led` on each
bucket in order until one reports a removal, returning that bucket's color. -/
def removeCacheB : List SingleColor → Nat → Option HSVColor × List SingleColor
  | [], _ => (none, [])
  | b :: bs, led =>
    match b.uncache_led led with
    | (b2, true) => (some b2.color, b2 :: bs)
    | (b2, false) =>
      let p := removeCacheB bs led
      (p.1, b2 :: p.2)

/-- `ColorCache::remove_cache`. -/
def ColorCache.remove_cache (s : ColorCache) (led : Nat) : Option HSVColor × ColorCache :=
  match s with
  | none => (none, none)
  | some bs =>
    let p := removeCacheB bs led
    (p.1, some p.2)

/-- `ColorCache::cache_size`: sum of the bucket sizes. -/
def ColorCache.cache_size (s : ColorCache) : Nat :=
  match s with
  | none => 0
  | some bs => (bs.map SingleColor.cached_size).sum

/-- Total occurrence count of `x` over all buckets (specification device). -/
def countAllB (bs : List SingleColor) (x : Nat) : Nat :=
  (bs.map (fun b => b.countLed x)).sum

/-- Operations a client can perform on a cache, for stating state-reachability. -/
inductive CacheOp where
  | cache (led : Nat) (c : HSVColor)
  | put (led : Nat)
deriving DecidableEq, Repr

/-- Apply one operation, dropping the returned value (`put` is `remove_cache`). -/
def applyOp (s : ColorCache) : CacheOp → ColorCache
  | .cache led c => (s.cache_color led c).2
  | .put led => (s.remove_cache led).2

/-- Apply a sequence of operations from left to right. -/
def applyOps (ops : List CacheOp) (s : ColorCache) : ColorCache :=
  ops.foldl applyOp s

/-! ### Counting lemmas for the color cache -/

/-- Occurrence count of `x` over a list of ranges. -/
def rangesCnt (rs : List RangeN) (x : Nat) : Nat := (rs.map (fun r => r.cnt x)).sum

/-- All ranges of the list run forward (`start < stop`). -/
def rangesFwd (rs : List RangeN) : Prop := ∀ r ∈ rs, r.start < r.stop

/-- All ranges of the list have length at least 2 (the shape every stored
range of a reachable cache has). -/
def rangesLen2 (rs : List RangeN) : Prop := ∀ r ∈ rs, r.start + 2 ≤ r.stop

/-- Total cached size of a bucket vector. -/
def bucketsSize (bs : List SingleColor) : Nat := (bs.map SingleColor.cached_size).sum

/-- Well-formedness the reachable caches have: every stored range runs forward. -/
def ColorCache.wfFwd : ColorCache → Prop
  | none => True
  | some bs => ∀ b ∈ bs, rangesFwd b.ranges

/-- Total occurrence count of an id over the whole cache (specification device). -/
def ColorCache.countAll : ColorCache → Nat → Nat
  | none, _ => 0
  | some bs, x => countAllB bs x

/-- Apply a list of `cache_color` calls (id, color) from left to right. -/
def applyCaches (ops : List (Nat × HSVColor)) (s : ColorCache) : ColorCache :=
  ops.foldl (fun t p => (t.cache_color p.1 p.2).2) s

/-- The led is recorded in the bucket that `cache_color` would select for
the color (the first bucket of that color in traversal order). -/
def inColorBucketB : List SingleColor → Nat → HSVColor → Prop
  | [], _, _ => False
  | b :: bs, led, c =>
    if b.color = c then b.contains_led_id led = true else inColorBucketB bs led c

/-- Cache-level version of `inColorBucketB`. -/
def ColorCache.inBucket : ColorCache → Nat → HSVColor → Prop
  | none, _, _ => False
  | some bs, led, c => inColorBucketB bs led c

instance instDecInColorBucketB :
    ∀ (bs : List SingleColor) (led : Nat) (c : HSVColor), Decidable (inColorBucketB bs led c)
  | [], _, _ => isFalse (fun h => h)
  | b :: bs, led, c => by
    unfold inColorBucketB
    have : Decidable (inColorBucketB bs led c) := instDecInColorBucketB bs led c
    infer_instance

instance : ∀ (s : ColorCache) (led : Nat) (c : HSVColor), Decidable (s.inBucket led c)
  | none, _, _ => isFalse (fun h => h)
  | some bs, led, c => inferInstanceAs (Decidable (inColorBucketB bs led c))

/-- Per-bucket shape of reachable caches: every stored range has length at
least 2 and no LED occurs twice within the bucket. -/
def bucketInv (b : SingleColor) : Prop :=
  rangesLen2 b.ranges ∧ ∀ x, b.countLed x ≤ 1

/-- Invariant every reachable cache satisfies: all buckets are well-shaped
and their colors are pairwise distinct. -/
def cacheInv : ColorCache → Prop
  | none => True
  | some bs => (∀ b ∈ bs, bucketInv b) ∧ (bs.map SingleColor.color).Nodup

/-- The bucket invariant exactly as the claim states it: a LED id belongs to
at most one bucket, ranges are pairwise disjoint and non-adjacent, no range
is adjacent to a stored single, and no LED is both in a range and a single. -/
def specBucketMaximal (b : SingleColor) : Prop :=
  b.ranges.Pairwise (fun r q => (∀ x, ¬(r.mem x ∧ q.mem x)) ∧ r.stop ≠ q.start ∧ q.stop ≠ r.start) ∧
  (∀ r ∈ b.ranges, ∀ x ∈ b.single_led, x + 1 ≠ r.start ∧ r.stop ≠ x ∧ ¬ r.mem x)

/-- The cache invariant exactly as the claim states it. -/
def specClaimInv : ColorCache → Prop
  | none => True
  | some bs =>
    (∀ x : Nat, (bs.filter (fun b => b.contains_led_id x)).length ≤ 1) ∧
    ∀ b ∈ bs, specBucketMaximal b

/-! ### The IndexMap algebra (`src/indexing.rs`) -/

/-- Errors of the `Indexing` contract (`enum MappingError`). -/
inductive MappingError where
  | NotInMappingRange
  | IndexOutOfBounds
deriving DecidableEq, Repr

/-- Outcome of an `index` call: `Ok` with the id(s) the output iterator
yields, a `MappingError`, or a Rust panic (out-of-bounds slice access or an
arithmetic overflow under overflow checks). -/
inductive IdxRes where
  | ok (ids : List Nat)
  | err (e : MappingError)
  | panic
deriving DecidableEq, Repr

/-- Bound argument of `BoundedIndexed` (`enum Bound`). -/
inductive IBound where
  | nob
  | rel (o : Nat)
  | abs (o : Nat)
deriving DecidableEq, Repr

/-- `enum UnevenBehavior`. -/
inductive UnevenBehavior where
  | Exclude
  | ToLower
  | ToUpper
deriving DecidableEq, Repr

/-- Syntax of the mapping combinators over a base `Range<u16>`, slice or
array: `ReversedIndexed`, `EveryNthIndexed`, `CircularIndexed`,
`BoundedIndexed`, `HalfIndexed` and `SplitMirroredIndexed`, each holding its
inner map. -/
inductive IMap where
  | range (start stop : Nat)
  | arr (xs : List Nat)
  | rev (m : IMap)
  | nth (m : IMap) (n : Nat)
  | circ (m : IMap) (k : Int)
  | bounded (m : IMap) (front bk : IBound)
  | half (m : IMap) (lower : Bool) (u : UnevenBehavior)
  | mirrored (m : IMap) (u : UnevenBehavior)
deriving DecidableEq, Repr

/-- Largest `u16` value; lengths and ordinals pass through `u16` conversions. -/
def u16Max : Nat := 65535

/-- `BoundedIndexed::front_off`. -/
def frontOff : IBound → Nat
  | .nob => 0
  | .rel o => o
  | .abs o => o

/-- `BoundedIndexed::end_off`; the `Absolute` case computes
`inner.len() - o - 1` (a usize subtraction that would panic for
`o >= inner.len()`; modelled as truncated subtraction, ruled out by `WFMap`). -/
def endOff (b : IBound) (innerLen : Nat) : Nat :=
  match b with
  | .nob => 0
  | .rel o => o
  | .abs o => innerLen - o - 1

/-- `len()` of each map.  The `nth` case divides by `n` (a Rust panic for
`n = 0`, here the Lean junk value 0) and the `bounded` case subtracts the
offsets (a Rust panic on underflow, here truncated); `WFMap` rules both out. -/
def mlen : IMap → Nat
  | .range s e => e - s
  | .arr xs => xs.length
  | .rev m => mlen m
  | .nth m n => mlen m / n
  | .circ m _ => mlen m
  | .bounded m f b => mlen m - frontOff f - endOff b (mlen m)
  | .half m lower u =>
    if mlen m % 2 ≠ 0 then
      if lower then
        match u with
        | .Exclude | .ToUpper => mlen m / 2
        | .ToLower => mlen m / 2 + 1
      else
        match u with
        | .Exclude | .ToLower => mlen m / 2
        | .ToUpper => mlen m / 2 + 1
    else mlen m / 2
  | .mirrored m u =>
    if mlen m % 2 ≠ 0 then
      match u with
      | .Exclude => mlen m / 2
      | .ToLower | .ToUpper => (mlen m + 1) / 2
    else mlen m / 2

/-- `index()` of each map, with every `u16` conversion, checked addition,
multiplication and subtraction of the source made explicit; `.panic` marks
the executions on which the Rust code panics (slice out-of-bounds access,
`try_from(...).unwrap()` failures and arithmetic over/underflow under
overflow checks). -/
def midx : IMap → Nat → IdxRes
  | .range s e, i =>
    if u16Max < s + i then .err .NotInMappingRange
    else if e ≤ s + i then .err .NotInMappingRange
    else .ok [s + i]
  | .arr xs, i =>
    if h : i < xs.length then .ok [xs.get ⟨i, h⟩] else .panic
  | .rev m, i =>
    if u16Max < mlen m then .panic
    else if mlen m < i + 1 then .panic
    else midx m (mlen m - i - 1)
  | .nth m n, i =>
    if u16Max < n then .panic
    else if u16Max < i * n then .panic
    else midx m (i * n)
  | .circ m k, i =>
    if u16Max < mlen m then .panic
    else if mlen m ≤ i then .err .IndexOutOfBounds
    else if (i : Int) + k < 0 then
      if u16Max < ((i : Int) + k).natAbs then .panic
      else if mlen m < ((i : Int) + k).natAbs then .panic
      else midx m (mlen m - ((i : Int) + k).natAbs)
    else
      if u16Max < ((i : Int) + k).toNat then .panic
      else midx m (((i : Int) + k).toNat % mlen m)
  | .bounded m f b, i =>
    if u16Max < mlen (.bounded m f b) then .err .IndexOutOfBounds
    else if mlen (.bounded m f b) ≤ i then .err .NotInMappingRange
    else if u16Max < frontOff f then .panic
    else if u16Max < i + frontOff f then .panic
    else midx m (i + frontOff f)
  | .half m lower u, i =>
    if lower then midx m i
    else
      if u16Max < mlen m - mlen (.half m lower u) then .panic
      else if u16Max < i + (mlen m - mlen (.half m lower u)) then .panic
      else midx m (i + (mlen m - mlen (.half m lower u)))
  | .mirrored m u, i =>
    if u16Max < mlen (.mirrored m u) then .panic
    else if mlen (.mirrored m u) ≤ i then .err .NotInMappingRange
    else if u16Max < mlen m then .panic
    else if mlen m < i + 1 then .panic
    else
      match midx m i, midx m (mlen m - i - 1) with
      | .ok [a], .ok [b] => .ok [a, b]
      | .err e, _ => .err e
      | _, .err e => .err e
      | _, _ => .panic

/-- The map's output iterator is `SingleIndexed` (one id per ordinal); the
typing constraint `Indexing<OutputIndex = SingleIndexed>` that
`SplitMirroredIndexed` puts on its inner map. -/
def singleOut : IMap → Prop
  | .range _ _ => True
  | .arr _ => True
  | .rev m => singleOut m
  | .nth m _ => singleOut m
  | .circ m _ => singleOut m
  | .bounded m _ _ => singleOut m
  | .half m _ _ => singleOut m
  | .mirrored _ _ => False

/-- The side condition of an `Absolute` end bound (used by `WFMap`). -/
def absOk (b : IBound) (l : Nat) : Prop :=
  match b with
  | .abs o => o < l
  | _ => True

instance : ∀ (b : IBound) (l : Nat), Decidable (absOk b l)
  | .nob, _ => isTrue trivial
  | .rel _, _ => isTrue trivial
  | .abs o, l => inferInstanceAs (Decidable (o < l))

/-- Well-formed nestings: `u16`-sized bases, a positive stride for
`every_nth`, the `|k| < len` assert of `CircularIndexed::new` together with
the `u16` headroom its index arithmetic needs, offsets that fit the inner
length for `bounded`, and a single-output inner map for `split_mirrored`. -/
def WFMap : IMap → Prop
  | .range s e => s ≤ u16Max ∧ e ≤ u16Max
  | .arr xs => xs.length ≤ u16Max
  | .rev m => WFMap m
  | .nth m n => WFMap m ∧ 1 ≤ n ∧ n ≤ u16Max
  | .circ m k => WFMap m ∧ k.natAbs < mlen m ∧ mlen m + k.natAbs ≤ u16Max + 1
  | .bounded m f b =>
    WFMap m ∧ frontOff f + endOff b (mlen m) ≤ mlen m ∧ absOk b (mlen m)
  | .half m _ _ => WFMap m
  | .mirrored m _ => WFMap m ∧ singleOut m

instance instDecSingleOut : ∀ m : IMap, Decidable (singleOut m)
  | .range _ _ => isTrue trivial
  | .arr _ => isTrue trivial
  | .rev m => instDecSingleOut m
  | .nth m _ => instDecSingleOut m
  | .circ m _ => instDecSingleOut m
  | .bounded m _ _ => instDecSingleOut m
  | .half m _ _ => instDecSingleOut m
  | .mirrored _ _ => isFalse (fun h => h)

instance instDecWFMap : ∀ m : IMap, Decidable (WFMap m)
  | .range s e => inferInstanceAs (Decidable (s ≤ u16Max ∧ e ≤ u16Max))
  | .arr xs => inferInstanceAs (Decidable (xs.length ≤ u16Max))
  | .rev m => instDecWFMap m
  | .nth m _ => @instDecidableAnd _ _ (instDecWFMap m) inferInstance
  | .circ m _ => @instDecidableAnd _ _ (instDecWFMap m) inferInstance
  | .bounded m _ _ => @instDecidableAnd _ _ (instDecWFMap m) inferInstance
  | .half m _ _ => instDecWFMap m
  | .mirrored m _ => @instDecidableAnd _ _ (instDecWFMap m) (instDecSingleOut m)

/-! ### Timeline and processors (`src/timeline.rs`, `src/processing.rs`) -/

/-- A scheduled animation: `TimedAnimation(start_tick, animation)`; of the
animation itself only `duration()` matters to the scheduler. -/
structure TLEntry where
  start : Nat
  dur : Nat
deriving DecidableEq, Repr

/-- `DynTimelineIter::next`: skip entries with `within_tick > start + duration`,
then yield the first remaining entry when its `start < within_tick`, else
stop.  Returns the yielded entry and the remaining slice. -/
def tlNext : List TLEntry → Nat → Option (TLEntry × List TLEntry)
  | [], _ => none
  | e :: es, t =>
    if e.start + e.dur < t then tlNext es t
    else if e.start < t then some (e, es) else none

/-- Repeated `next` calls up to `fuel` yields (a `for` loop stops at the
first `None`). -/
def tlEnumF : Nat → List TLEntry → Nat → List TLEntry
  | 0, _, _ => []
  | fuel + 1, es, t =>
    match tlNext es t with
    | none => []
    | some (e, es2) => e :: tlEnumF fuel es2 t

/-- One full enumeration of `get_current_entries(t)`: drive the iterator
until its first `None` (`length + 1` calls always suffice, as each yield
consumes at least one entry of the slice). -/
def tlEnum (es : List TLEntry) (t : Nat) : List TLEntry :=
  tlEnumF (es.length + 1) es t

/-- `DynTimeline::has_finished`: the last entry has fully elapsed
(`start + duration < tick`); an empty timeline is always finished. -/
def tlHasFinished (es : List TLEntry) (t : Nat) : Bool :=
  match es.getLast? with
  | some e => decide (e.start + e.dur < t)
  | none => true

/-- Entries sorted by start tick (what `DynTimelineBuilder::finish` produces). -/
def tlSorted (es : List TLEntry) : Prop :=
  es.Pairwise (fun a b => a.start ≤ b.start)

/-- The interval the iterator actually yields: `start < t <= start + duration`. -/
def yieldedAt (t : Nat) (e : TLEntry) : Bool :=
  decide (e.start < t) && decide (t ≤ e.start + e.dur)

/-- `TimelineProcessor` state (the timeline plus the repeat flag and
bookkeeping fields). -/
structure TLProc where
  entries : List TLEntry
  repeating : Bool
  no_work : Bool
  tick_offset : Nat
  iteration_index : Nat
deriving DecidableEq, Repr

/-- `TimelineProcessor::new`. -/
def TLProc.new (es : List TLEntry) (rep : Bool) : TLProc :=
  { entries := es, repeating := rep, no_work := false, tick_offset := 0, iteration_index := 0 }

/-- `TimelineProcessor::update`: on a finished local tick either loop
(repeat) or mark no-work, then query and render the current entries.  The
`current_tick - tick_offset` subtraction is `u32` in the source; in the
non-repeating scenarios proved here the offset is 0, so the truncated `Nat`
subtraction is exact. -/
def TLProc.update (p : TLProc) (current_tick : Nat) : TLProc × List TLEntry :=
  let p1 :=
    if tlHasFinished p.entries (current_tick - p.tick_offset) then
      if p.repeating then
        { p with tick_offset := current_tick, iteration_index := p.iteration_index + 1 }
      else { p with no_work := true }
    else p
  (p1, tlEnum p1.entries (current_tick - p1.tick_offset))

/-- `TimelineProcessor::has_no_work`. -/
def TLProc.has_no_work (p : TLProc) : Bool := p.no_work

/-- `SingleAnimationProcessor` state (its animation reduced to start and
duration). -/
structure SAProc where
  start : Nat
  dur : Nat
  has_finished : Bool
deriving DecidableEq, Repr

/-- `SingleAnimationProcessor::update`: when `start + duration > current_tick`
it sets `has_finished` and returns without rendering; otherwise it animates
at local tick `current_tick - start` (the `some` value) and writes the
resulting colorings. -/
def SAProc.update (p : SAProc) (current_tick : Nat) : SAProc × Option Nat :=
  if p.start + p.dur > current_tick then ({ p with has_finished := true }, none)
  else (p, some (current_tick - p.start))

/-- `SingleAnimationProcessor::has_no_work`. -/
def SAProc.has_no_work (p : SAProc) : Bool := p.has_finished

instance instDecStartLe : DecidableRel (fun (a b : TLEntry) => a.start ≤ b.start) :=
  fun a b => inferInstanceAs (Decidable (a.start ≤ b.start))

instance instDecidableTlSorted (es : List TLEntry) : Decidable (tlSorted es) := by
  unfold tlSorted
  infer_instance

/-! ### The border-aware window iterator (`ActiveRangeIter`) -/

/-- `enum BorderType` (only `ClosedStartEnd` and `WrappingStartEnd` are
implemented; the other two hit `unimplemented!()` in every branch). -/
inductive BorderType where
  | ClosedStartEnd
  | WrappingStart
  | WrappingEnd
  | WrappingStartEnd
deriving DecidableEq, Repr

/-- `struct AnchoredRange { anchor, range }`: the chunk's physical anchor and
its half-open sub-range of the window. -/
structure AnchoredRange where
  anchor : Nat
  rstart : Nat
  rstop : Nat
deriving DecidableEq, Repr

/-- The mutable iterator state of `ActiveRangeIter`. -/
structure ARState where
  anchor : Int
  active_animation_len : Nat
  general_animation_len : Nat
  border_type : BorderType
  animation_offset : Nat
deriving DecidableEq, Repr

/-- `ActiveRangeIter::new`. -/
def ARState.new (anchor : Int) (active general : Nat) (b : BorderType) : ARState :=
  { anchor := anchor, active_animation_len := active, general_animation_len := general,
    border_type := b, animation_offset := 0 }

/-- Result of one `next()` call: a yielded chunk with the successor state,
exhaustion, or a panic (`unimplemented!()`, a failed `u16` conversion, or
arithmetic over/underflow under overflow checks). -/
inductive StepRes where
  | yield (c : AnchoredRange) (s : ARState)
  | done
  | panic
deriving DecidableEq, Repr

/-- `ActiveRangeIter::next`, with the source's `u16` subtractions, additions
and conversions made explicit (each `if ... then .panic` marks one that can
panic); `Range::len()` saturates at 0, so `outside - offset` and
`stop - offset` are truncated subtractions exactly like the source. -/
def arNext (s : ARState) : StepRes :=
  if s.active_animation_len < s.animation_offset then .panic
  else if s.active_animation_len - s.animation_offset = 0 then .done
  else if s.anchor < 0 ∧
      (s.general_animation_len : Int) < s.anchor + (s.active_animation_len - s.animation_offset : Nat) then
    .panic
  else if s.anchor < 0 then
    if (u16Max : Int) < -s.anchor then .panic
    else
      match s.border_type with
      | .ClosedStartEnd =>
        if u16Max < s.anchor.natAbs + s.animation_offset then .panic
        else if u16Max < s.animation_offset + (s.active_animation_len - s.animation_offset) then .panic
        else
          .yield ⟨0, s.anchor.natAbs + s.animation_offset, s.active_animation_len⟩
            { s with animation_offset := s.animation_offset + (s.active_animation_len - s.animation_offset),
                     anchor := 0 }
      | .WrappingStartEnd =>
        if s.general_animation_len < s.anchor.natAbs - s.animation_offset then .panic
        else if u16Max < s.animation_offset + (s.anchor.natAbs - s.animation_offset) then .panic
        else
          .yield ⟨s.general_animation_len - (s.anchor.natAbs - s.animation_offset),
                  s.animation_offset, s.anchor.natAbs⟩
            { s with animation_offset := s.animation_offset + (s.anchor.natAbs - s.animation_offset),
                     anchor := 0 }
      | _ => .panic
  else if (s.general_animation_len : Int) < s.anchor + (s.active_animation_len - s.animation_offset : Nat) then
    if (u16Max : Int) < s.anchor then .panic
    else if u16Max < s.anchor.toNat + (s.active_animation_len - s.animation_offset) then .panic
    else if s.active_animation_len <
        s.anchor.toNat + (s.active_animation_len - s.animation_offset) - s.general_animation_len then
      .panic
    else if s.general_animation_len <
        (s.active_animation_len -
          (s.anchor.toNat + (s.active_animation_len - s.animation_offset) - s.general_animation_len))
          - s.animation_offset then
      .panic
    else
      match s.border_type with
      | .ClosedStartEnd =>
        if u16Max < s.animation_offset + (s.active_animation_len - s.animation_offset) then .panic
        else
          .yield ⟨s.general_animation_len -
                    ((s.active_animation_len -
                      (s.anchor.toNat + (s.active_animation_len - s.animation_offset)
                        - s.general_animation_len)) - s.animation_offset),
                  s.animation_offset,
                  s.active_animation_len -
                    (s.anchor.toNat + (s.active_animation_len - s.animation_offset)
                      - s.general_animation_len)⟩
            { s with animation_offset := s.animation_offset + (s.active_animation_len - s.animation_offset),
                     anchor := (s.general_animation_len : Int) }
      | .WrappingStartEnd =>
        if u16Max < s.animation_offset +
            ((s.active_animation_len -
              (s.anchor.toNat + (s.active_animation_len - s.animation_offset)
                - s.general_animation_len)) - s.animation_offset) then
          .panic
        else
          .yield ⟨s.general_animation_len -
                    ((s.active_animation_len -
                      (s.anchor.toNat + (s.active_animation_len - s.animation_offset)
                        - s.general_animation_len)) - s.animation_offset),
                  s.animation_offset,
                  s.active_animation_len -
                    (s.anchor.toNat + (s.active_animation_len - s.animation_offset)
                      - s.general_animation_len)⟩
            { s with animation_offset := s.animation_offset +
                      ((s.active_animation_len -
                        (s.anchor.toNat + (s.active_animation_len - s.animation_offset)
                          - s.general_animation_len)) - s.animation_offset),
                     anchor := 0 }
      | _ => .panic
  else
    if (u16Max : Int) < s.anchor then .panic
    else if u16Max < s.animation_offset + (s.active_animation_len - s.animation_offset) then .panic
    else
      .yield ⟨s.anchor.toNat, s.animation_offset, s.active_animation_len⟩
        { s with animation_offset := s.animation_offset + (s.active_animation_len - s.animation_offset),
                 anchor := ((s.active_animation_len - s.animation_offset : Nat) : Int) }

/-- Drive the iterator for up to `fuel` steps, collecting the chunks of one
full enumeration; `none` when a panic occurs (or the fuel runs out before
exhaustion). -/
def arRun : Nat → ARState → Option (List AnchoredRange)
  | 0, _ => none
  | fuel + 1, s =>
    match arNext s with
    | .done => some []
    | .panic => none
    | .yield c s2 => (arRun fuel s2).map (fun cs => c :: cs)

/-- The window positions a chunk list covers, in yield order. -/
def chunksJoined (cs : List AnchoredRange) : List Nat :=
  (cs.map (fun c => List.range' c.rstart (c.rstop - c.rstart))).flatten

theorem rangesLen2.fwd {rs : List RangeN} (h : rangesLen2 rs) : rangesFwd rs :=
  fun r hr => by have := h r hr; omega

theorem countLed_def (b : SingleColor) (x : Nat) :
    b.countLed x = rangesCnt b.ranges x + b.single_led.count x := rfl

theorem rangesCnt_nil (x : Nat) : rangesCnt [] x = 0 := rfl

theorem rangesCnt_cons (r : RangeN) (rs : List RangeN) (x : Nat) :
    rangesCnt (r :: rs) x = r.cnt x + rangesCnt rs x := by
  simp [rangesCnt]

theorem rangesCnt_append (rs1 rs2 : List RangeN) (x : Nat) :
    rangesCnt (rs1 ++ rs2) x = rangesCnt rs1 x + rangesCnt rs2 x := by
  simp [rangesCnt]

theorem rangesCnt_pos_iff (rs : List RangeN) (x : Nat) :
    0 < rangesCnt rs x ↔ ∃ r ∈ rs, r.mem x := by
  induction rs with
  | nil => simp [rangesCnt_nil]
  | cons r rs ih =>
    rw [rangesCnt_cons]
    constructor
    · intro h
      by_cases hm : r.mem x
      · exact ⟨r, List.mem_cons_self r rs, hm⟩
      · have : r.cnt x = 0 := by simp [RangeN.cnt, hm]
        rw [this] at h
        obtain ⟨r2, hr2, hm2⟩ := ih.1 (by omega)
        exact ⟨r2, List.mem_cons_of_mem _ hr2, hm2⟩
    · rintro ⟨r2, hr2, hm2⟩
      rcases List.mem_cons.1 hr2 with h | h
      · subst h; simp [RangeN.cnt, hm2]
      · have := ih.2 ⟨r2, h, hm2⟩
        omega

theorem contains_iff_countLed (b : SingleColor) (x : Nat) :
    b.contains_led_id x = true ↔ 0 < b.countLed x := by
  rw [countLed_def]
  have hc : (b.single_led.contains x = true) ↔ x ∈ b.single_led := by
    simp [List.contains, List.elem_iff]
  simp only [SingleColor.contains_led_id, Bool.or_eq_true, List.any_eq_true,
    decide_eq_true_eq]
  rw [hc, ← List.count_pos_iff, ← rangesCnt_pos_iff]
  omega

theorem extendFirstRange_spec {rs rs2 : List RangeN} {led : Nat}
    (hf : rangesFwd rs) (h : extendFirstRange rs led = some rs2) :
    (∀ x, rangesCnt rs2 x = rangesCnt rs x + (if x = led then 1 else 0)) ∧
    (rs2.map RangeN.rlen).sum = (rs.map RangeN.rlen).sum + 1 ∧
    rangesFwd rs2 ∧ (rangesLen2 rs → rangesLen2 rs2) := by
  induction rs generalizing rs2 with
  | nil => simp [extendFirstRange] at h
  | cons r rs ih =>
    have hfr : r.start < r.stop := hf r (List.mem_cons_self r rs)
    have hft : rangesFwd rs := fun a ha => hf a (List.mem_cons_of_mem _ ha)
    rw [extendFirstRange] at h
    by_cases h1 : r.start = led + 1
    · rw [if_pos h1] at h
      injection h with h
      subst h
      refine ⟨?_, ?_, ?_, ?_⟩
      · intro x
        rw [rangesCnt_cons, rangesCnt_cons]
        simp only [RangeN.cnt, RangeN.mem]
        split_ifs <;> simp_all <;> omega
      · simp only [List.map_cons, List.sum_cons, RangeN.rlen]
        omega
      · intro a ha
        rcases List.mem_cons.1 ha with h | h
        · subst h; simp only []; omega
        · exact hft a h
      · intro h2 a ha
        rcases List.mem_cons.1 ha with h | h
        · subst h
          have := h2 r (List.mem_cons_self r rs)
          simp only [] at *
          omega
        · exact h2 a (List.mem_cons_of_mem _ h)
    · rw [if_neg h1] at h
      by_cases h2 : r.stop = led
      · rw [if_pos h2] at h
        injection h with h
        subst h
        refine ⟨?_, ?_, ?_, ?_⟩
        · intro x
          rw [rangesCnt_cons, rangesCnt_cons]
          simp only [RangeN.cnt, RangeN.mem]
          split_ifs <;> simp_all <;> omega
        · simp only [List.map_cons, List.sum_cons, RangeN.rlen]
          omega
        · intro a ha
          rcases List.mem_cons.1 ha with h | h
          · subst h; simp only []; omega
          · exact hft a h
        · intro h3 a ha
          rcases List.mem_cons.1 ha with h | h
          · subst h
            have := h3 r (List.mem_cons_self r rs)
            simp only [] at *
            omega
          · exact h3 a (List.mem_cons_of_mem _ h)
      · rw [if_neg h2] at h
        rcases Option.map_eq_some'.1 h with ⟨rs3, hrs3, heq⟩
        subst heq
        obtain ⟨hc, hs, hfwd, hl2⟩ := ih hft hrs3
        refine ⟨?_, ?_, ?_, ?_⟩
        · intro x
          rw [rangesCnt_cons, rangesCnt_cons, hc x]
          omega
        · simp only [List.map_cons, List.sum_cons]
          omega
        · intro a ha
          rcases List.mem_cons.1 ha with h | h
          · subst h; exact hfr
          · exact hfwd a h
        · intro h3 a ha
          rcases List.mem_cons.1 ha with h | h
          · subst h; exact h3 _ (List.mem_cons_self _ _)
          · exact hl2 (fun u hu => h3 u (List.mem_cons_of_mem _ hu)) a h

theorem groupingSingle_spec {ss ss2 : List Nat} {led : Nat} {r : RangeN}
    (h : groupingSingle ss led = some (ss2, r)) :
    (∀ x, ss2.count x + r.cnt x = ss.count x + (if x = led then 1 else 0)) ∧
    ss2.length + 1 = ss.length ∧ r.start + 2 = r.stop := by
  induction ss generalizing ss2 with
  | nil => simp [groupingSingle] at h
  | cons s ss ih =>
    rw [groupingSingle] at h
    by_cases h1 : s = led + 1
    · rw [if_pos h1] at h
      injection h with h
      injection h with h1' h2'
      subst h1'
      subst h2'
      subst h1
      refine ⟨?_, by simp, by simp⟩
      intro x
      simp only [RangeN.cnt, RangeN.mem, List.count_cons]
      split_ifs <;> simp_all <;> omega
    · rw [if_neg h1] at h
      by_cases h2 : led > 0 ∧ s = led - 1
      · rw [if_pos h2] at h
        injection h with h
        injection h with h1' h2'
        subst h1'
        subst h2'
        obtain ⟨hpos, hs⟩ := h2
        subst hs
        refine ⟨?_, by simp, by simp; omega⟩
        intro x
        simp only [RangeN.cnt, RangeN.mem, List.count_cons]
        split_ifs <;> simp_all <;> omega
      · rw [if_neg h2] at h
        rcases Option.map_eq_some'.1 h with ⟨⟨ss3, r3⟩, hss3, heq⟩
        dsimp only at heq
        injection heq with heq1 heq2
        subst heq2
        subst heq1
        obtain ⟨hc, hl, hr⟩ := ih hss3
        refine ⟨?_, by simp; omega, hr⟩
        intro x
        simp only [List.count_cons]
        have := hc x
        omega

theorem cache_led_color (b : SingleColor) (led : Nat) :
    (b.cache_led led).color = b.color := by
  unfold SingleColor.cache_led
  cases hE : extendFirstRange b.ranges led with
  | some rs => rfl
  | none =>
    cases hG : groupingSingle b.single_led led with
    | some p => cases p; rfl
    | none => rfl

theorem cache_led_count {b : SingleColor} {led : Nat} (hf : rangesFwd b.ranges) (x : Nat) :
    (b.cache_led led).countLed x = b.countLed x + (if x = led then 1 else 0) := by
  unfold SingleColor.cache_led
  cases hE : extendFirstRange b.ranges led with
  | some rs =>
    obtain ⟨hc, _, _, _⟩ := extendFirstRange_spec hf hE
    simp only [countLed_def, hc x]
    omega
  | none =>
    cases hG : groupingSingle b.single_led led with
    | some p =>
      obtain ⟨ss2, r⟩ := p
      obtain ⟨hc, _, _⟩ := groupingSingle_spec hG
      simp only [countLed_def, rangesCnt_append]
      have := hc x
      have hone : rangesCnt [r] x = r.cnt x := by simp [rangesCnt]
      rw [hone]
      omega
    | none =>
      simp only [countLed_def, List.count_append]
      have : List.count x [led] = if x = led then 1 else 0 := by
        by_cases hx : x = led
        · subst hx; simp
        · simp [List.count_cons, hx]
      omega

theorem cache_led_size {b : SingleColor} {led : Nat} (hf : rangesFwd b.ranges) :
    (b.cache_led led).cached_size = b.cached_size + 1 := by
  unfold SingleColor.cache_led
  cases hE : extendFirstRange b.ranges led with
  | some rs =>
    obtain ⟨_, hs, _, _⟩ := extendFirstRange_spec hf hE
    simp only [SingleColor.cached_size, hs]
    omega
  | none =>
    cases hG : groupingSingle b.single_led led with
    | some p =>
      obtain ⟨ss2, r⟩ := p
      obtain ⟨_, hl, hr⟩ := groupingSingle_spec hG
      simp only [SingleColor.cached_size, List.map_append, List.sum_append,
        List.map_cons, List.sum_cons, List.map_nil, List.sum_nil, RangeN.rlen]
      omega
    | none =>
      simp only [SingleColor.cached_size, List.length_append, List.length_cons,
        List.length_nil]
      omega

theorem cache_led_fwd {b : SingleColor} {led : Nat} (hf : rangesFwd b.ranges) :
    rangesFwd (b.cache_led led).ranges := by
  unfold SingleColor.cache_led
  cases hE : extendFirstRange b.ranges led with
  | some rs =>
    obtain ⟨_, _, hfw, _⟩ := extendFirstRange_spec hf hE
    exact hfw
  | none =>
    cases hG : groupingSingle b.single_led led with
    | some p =>
      obtain ⟨ss2, r⟩ := p
      obtain ⟨_, _, hr⟩ := groupingSingle_spec hG
      intro a ha
      rcases List.mem_append.1 ha with h | h
      · exact hf a h
      · rcases List.mem_singleton.1 h with rfl
        omega
    | none => exact hf

theorem cache_led_len2 {b : SingleColor} {led : Nat} (h2 : rangesLen2 b.ranges) :
    rangesLen2 (b.cache_led led).ranges := by
  unfold SingleColor.cache_led
  cases hE : extendFirstRange b.ranges led with
  | some rs =>
    obtain ⟨_, _, _, hl⟩ := extendFirstRange_spec h2.fwd hE
    exact hl h2
  | none =>
    cases hG : groupingSingle b.single_led led with
    | some p =>
      obtain ⟨ss2, r⟩ := p
      obtain ⟨_, _, hr⟩ := groupingSingle_spec hG
      intro a ha
      rcases List.mem_append.1 ha with h | h
      · exact h2 a h
      · rcases List.mem_singleton.1 h with rfl
        omega
    | none => exact h2

theorem ungroupLeds_none_iff {rs : List RangeN} {led : Nat} :
    ungroupLeds rs led = none ↔ ∀ r ∈ rs, ¬ r.mem led := by
  induction rs with
  | nil => simp [ungroupLeds]
  | cons r rs ih =>
    rw [ungroupLeds]
    by_cases hm : r.mem led
    · simp [hm]
    · simp only [if_neg hm, Option.map_eq_none', ih]
      constructor
      · intro hall a ha
        rcases List.mem_cons.1 ha with h | h
        · subst h; exact hm
        · exact hall a h
      · intro hall a ha
        exact hall a (List.mem_cons_of_mem _ ha)

theorem ungroupLeds_spec {rs rs2 : List RangeN} {led : Nat} {r1 r2 : RangeN}
    (h : ungroupLeds rs led = some (rs2, r1, r2)) :
    ∃ r0 : RangeN, r0.mem led ∧ r1 = ⟨r0.start, led⟩ ∧ r2 = ⟨led + 1, r0.stop⟩ ∧
      (∀ x, rangesCnt rs x = rangesCnt rs2 x + r0.cnt x) ∧
      (rs.map RangeN.rlen).sum = (rs2.map RangeN.rlen).sum + r0.rlen ∧
      (∀ a ∈ rs2, a ∈ rs) := by
  induction rs generalizing rs2 with
  | nil => simp [ungroupLeds] at h
  | cons r rs ih =>
    rw [ungroupLeds] at h
    by_cases hm : r.mem led
    · rw [if_pos hm] at h
      injection h with h
      injection h with hA hB
      injection hB with hB hC
      subst hA
      subst hB
      subst hC
      refine ⟨r, hm, rfl, rfl, ?_, ?_, ?_⟩
      · intro x
        rw [rangesCnt_cons]
        omega
      · simp only [List.map_cons, List.sum_cons]
        omega
      · exact fun a ha => List.mem_cons_of_mem _ ha
    · rw [if_neg hm] at h
      rcases Option.map_eq_some'.1 h with ⟨⟨rs3, q1, q2⟩, hrs3, heq⟩
      dsimp only at heq
      injection heq with hA hB
      injection hB with hB hC
      subst hA
      subst hB
      subst hC
      obtain ⟨r0, hm0, e1, e2, hcnt, hsz, hsub⟩ := ih hrs3
      refine ⟨r0, hm0, e1, e2, ?_, ?_, ?_⟩
      · intro x
        rw [rangesCnt_cons, rangesCnt_cons, hcnt x]
        omega
      · simp only [List.map_cons, List.sum_cons]
        omega
      · intro a ha
        rcases List.mem_cons.1 ha with h | h
        · subst h; exact List.mem_cons_self _ _
        · exact List.mem_cons_of_mem _ (hsub a h)

theorem pushSplit_count (b : SingleColor) (r : RangeN) (x : Nat) :
    (pushSplit b r).countLed x = b.countLed x + r.cnt x := by
  unfold pushSplit
  split_ifs with h1 h2
  · have hstop : r.stop = r.start + 1 := by
      simp only [RangeN.rlen] at h1
      omega
    simp only [countLed_def, List.count_append]
    have : List.count x [r.start] = r.cnt x := by
      rcases eq_or_ne x r.start with rfl | hx
      · simp [RangeN.cnt, RangeN.mem, hstop]
      · have e1 : List.count x [r.start] = 0 := List.count_eq_zero.2 (by simp [hx])
        have e2 : r.cnt x = 0 := by
          simp only [RangeN.cnt, RangeN.mem, hstop]
          rw [if_neg (by omega)]
        rw [e1, e2]
    omega
  · simp only [countLed_def, rangesCnt_append]
    have : rangesCnt [r] x = r.cnt x := by simp [rangesCnt]
    omega
  · have : r.cnt x = 0 := by
      simp only [RangeN.rlen] at h1 h2
      simp [RangeN.cnt, RangeN.mem]
      omega
    simp [this]

theorem pushSplit_size (b : SingleColor) (r : RangeN) :
    (pushSplit b r).cached_size = b.cached_size + r.rlen := by
  unfold pushSplit
  split_ifs with h1 h2
  · simp only [SingleColor.cached_size, List.length_append, List.length_cons, List.length_nil]
    omega
  · simp only [SingleColor.cached_size, List.map_append, List.sum_append, List.map_cons,
      List.sum_cons, List.map_nil, List.sum_nil]
    omega
  · simp only [SingleColor.cached_size]
    omega

theorem pushSplit_fwd {b : SingleColor} (r : RangeN) (hf : rangesFwd b.ranges) :
    rangesFwd (pushSplit b r).ranges := by
  unfold pushSplit
  split_ifs with h1 h2
  · exact hf
  · intro a ha
    rcases List.mem_append.1 ha with h | h
    · exact hf a h
    · rcases List.mem_singleton.1 h with rfl
      simp only [RangeN.rlen] at h2
      omega
  · exact hf

theorem pushSplit_len2 {b : SingleColor} (r : RangeN) (hf : rangesLen2 b.ranges) :
    rangesLen2 (pushSplit b r).ranges := by
  unfold pushSplit
  split_ifs with h1 h2
  · exact hf
  · intro a ha
    rcases List.mem_append.1 ha with h | h
    · exact hf a h
    · rcases List.mem_singleton.1 h with rfl
      simp only [RangeN.rlen] at h2
      omega
  · exact hf

theorem pushSplit_color (b : SingleColor) (r : RangeN) :
    (pushSplit b r).color = b.color := by
  unfold pushSplit
  split_ifs <;> rfl

theorem removeFirstNat_none_iff {ss : List Nat} {led : Nat} :
    removeFirstNat ss led = none ↔ led ∉ ss := by
  induction ss with
  | nil => simp [removeFirstNat]
  | cons s ss ih =>
    rw [removeFirstNat]
    by_cases hs : s = led
    · simp [hs]
    · simp only [if_neg hs, Option.map_eq_none', ih, List.mem_cons]
      constructor
      · intro hn hc
        rcases hc with h | h
        · exact hs h.symm
        · exact hn h
      · intro hn h
        exact hn (Or.inr h)

theorem removeFirstNat_spec {ss ss2 : List Nat} {led : Nat}
    (h : removeFirstNat ss led = some ss2) :
    (∀ x, ss2.count x + (if x = led then 1 else 0) = ss.count x) ∧
    ss2.length + 1 = ss.length := by
  induction ss generalizing ss2 with
  | nil => simp [removeFirstNat] at h
  | cons s ss ih =>
    rw [removeFirstNat] at h
    by_cases hs : s = led
    · rw [if_pos hs] at h
      injection h with h
      subst h
      subst hs
      refine ⟨?_, by simp⟩
      intro x
      simp only [List.count_cons]
      by_cases hx : x = s
      all_goals simp [hx]
      all_goals omega
    · rw [if_neg hs] at h
      rcases Option.map_eq_some'.1 h with ⟨ss3, hss3, heq⟩
      subst heq
      obtain ⟨hc, hl⟩ := ih hss3
      refine ⟨?_, by simp; omega⟩
      intro x
      simp only [List.count_cons]
      have := hc x
      omega

theorem uncache_led_color (b : SingleColor) (led : Nat) :
    ((b.uncache_led led).1).color = b.color := by
  unfold SingleColor.uncache_led
  cases hU : ungroupLeds b.ranges led with
  | some p =>
    obtain ⟨rs, r1, r2⟩ := p
    simp only [pushSplit_color]
  | none =>
    cases hR : removeFirstNat b.single_led led with
    | some ss => rfl
    | none => rfl

theorem uncache_led_absent {b : SingleColor} {led : Nat}
    (h : b.countLed led = 0) : b.uncache_led led = (b, false) := by
  have hr : ∀ r ∈ b.ranges, ¬ r.mem led := by
    intro r hr hm
    have := (rangesCnt_pos_iff b.ranges led).2 ⟨r, hr, hm⟩
    rw [countLed_def] at h
    omega
  have hs : led ∉ b.single_led := by
    intro hmem
    have := List.count_pos_iff.2 hmem
    rw [countLed_def] at h
    omega
  unfold SingleColor.uncache_led
  rw [ungroupLeds_none_iff.2 hr, removeFirstNat_none_iff.2 hs]

theorem uncache_led_present {b : SingleColor} {led : Nat}
    (h : 0 < b.countLed led) :
    (b.uncache_led led).2 = true ∧
    ((b.uncache_led led).1).countLed led + 1 = b.countLed led ∧
    (∀ x, x ≠ led → ((b.uncache_led led).1).countLed x = b.countLed x) ∧
    ((b.uncache_led led).1).cached_size + 1 = b.cached_size ∧
    (rangesFwd b.ranges → rangesFwd ((b.uncache_led led).1).ranges) ∧
    (rangesLen2 b.ranges → rangesLen2 ((b.uncache_led led).1).ranges) := by
  unfold SingleColor.uncache_led
  cases hU : ungroupLeds b.ranges led with
  | some p =>
    obtain ⟨rs, r1, r2⟩ := p
    obtain ⟨r0, hm0, e1, e2, hcnt, hsz, hsub⟩ := ungroupLeds_spec hU
    subst e1
    subst e2
    obtain ⟨hm1, hm2⟩ := hm0
    refine ⟨rfl, ?_, ?_, ?_, ?_, ?_⟩
    · rw [pushSplit_count, pushSplit_count]
      have h1 : RangeN.cnt ⟨r0.start, led⟩ led = 0 := by
        simp [RangeN.cnt, RangeN.mem]
      have h2 : RangeN.cnt ⟨led + 1, r0.stop⟩ led = 0 := by
        simp [RangeN.cnt, RangeN.mem]
      have h3 : r0.cnt led = 1 := by
        simp [RangeN.cnt, RangeN.mem, hm1, hm2]
      have h4 := hcnt led
      rw [h1, h2]
      simp only [countLed_def]
      omega
    · intro x hx
      rw [pushSplit_count, pushSplit_count]
      have hsplit : RangeN.cnt ⟨r0.start, led⟩ x + RangeN.cnt ⟨led + 1, r0.stop⟩ x
          = r0.cnt x := by
        simp only [RangeN.cnt, RangeN.mem]
        split_ifs <;> simp_all <;> omega
      have h4 := hcnt x
      simp only [countLed_def] at *
      omega
    · rw [pushSplit_size, pushSplit_size]
      have hlen : RangeN.rlen ⟨r0.start, led⟩ + RangeN.rlen ⟨led + 1, r0.stop⟩ + 1
          = r0.rlen := by
        simp only [RangeN.rlen]
        omega
      simp only [SingleColor.cached_size] at *
      omega
    · intro hf
      apply pushSplit_fwd
      apply pushSplit_fwd
      exact fun a ha => hf a (hsub a ha)
    · intro hf
      apply pushSplit_len2
      apply pushSplit_len2
      exact fun a ha => hf a (hsub a ha)
  | none =>
    have hr0 : rangesCnt b.ranges led = 0 := by
      by_contra hpos
      obtain ⟨r, hrm, hm⟩ := (rangesCnt_pos_iff b.ranges led).1 (by omega)
      exact (ungroupLeds_none_iff.1 hU r hrm) hm
    have hsing : 0 < b.single_led.count led := by
      rw [countLed_def] at h
      omega
    cases hR : removeFirstNat b.single_led led with
    | some ss =>
      obtain ⟨hc, hl⟩ := removeFirstNat_spec hR
      refine ⟨rfl, ?_, ?_, ?_, fun hf => hf, fun hf => hf⟩
      · have h4 := hc led
        rw [if_pos rfl] at h4
        simp only [countLed_def]
        omega
      · intro x hx
        have h4 := hc x
        rw [if_neg hx] at h4
        simp only [countLed_def]
        omega
      · simp only [SingleColor.cached_size]
        omega
    | none =>
      exfalso
      have := removeFirstNat_none_iff.1 hR
      exact this (List.count_pos_iff.1 hsing)

theorem countAllB_cons (b : SingleColor) (bs : List SingleColor) (x : Nat) :
    countAllB (b :: bs) x = b.countLed x + countAllB bs x := by
  simp [countAllB]

theorem bucketsSize_cons (b : SingleColor) (bs : List SingleColor) :
    bucketsSize (b :: bs) = b.cached_size + bucketsSize bs := by
  simp [bucketsSize]

theorem loadB_none_iff {bs : List SingleColor} {x : Nat} :
    loadColorB bs x = none ↔ countAllB bs x = 0 := by
  induction bs with
  | nil => simp [loadColorB, countAllB]
  | cons b bs ih =>
    rw [loadColorB, countAllB_cons]
    by_cases hc : b.contains_led_id x = true
    · have hpos := (contains_iff_countLed b x).1 hc
      simp only [hc, if_true]
      constructor
      · intro h; exact absurd h (by simp)
      · intro h; exact absurd hpos (by omega)
    · have hz : b.countLed x = 0 := by
        by_contra hnz
        exact hc ((contains_iff_countLed b x).2 (by omega))
      rw [if_neg hc, ih]
      omega

theorem new_cache_led (c : HSVColor) (led : Nat) :
    (SingleColor.new c).cache_led led = { ranges := [], single_led := [led], color := c } := rfl

theorem new_cache_led_countLed (c : HSVColor) (led x : Nat) :
    ((SingleColor.new c).cache_led led).countLed x = if x = led then 1 else 0 := by
  rw [new_cache_led]
  simp only [countLed_def, rangesCnt_nil]
  rcases eq_or_ne x led with rfl | hx
  · simp
  · simp [List.count_cons, hx]

theorem cacheB_absent {bs : List SingleColor} {led : Nat} {c : HSVColor}
    (hf : ∀ b ∈ bs, rangesFwd b.ranges) (h0 : countAllB bs led = 0) :
    (cacheColorB bs led c).1 = none ∧
    loadColorB (cacheColorB bs led c).2 led = some c ∧
    bucketsSize (cacheColorB bs led c).2 = bucketsSize bs + 1 ∧
    countAllB (cacheColorB bs led c).2 led = 1 ∧
    (∀ x, x ≠ led → countAllB (cacheColorB bs led c).2 x = countAllB bs x) ∧
    (∀ b2 ∈ (cacheColorB bs led c).2, rangesFwd b2.ranges) := by
  induction bs with
  | nil =>
    simp only [cacheColorB, new_cache_led]
    refine ⟨by trivial, ?_, ?_, ?_, ?_, ?_⟩
    · simp [loadColorB, SingleColor.contains_led_id]
    · simp [bucketsSize, SingleColor.cached_size]
    · simp only [countAllB, List.map_cons, List.map_nil, List.sum_cons, List.sum_nil]
      rw [← new_cache_led, new_cache_led_countLed]
      simp
    · intro x hx
      simp only [countAllB, List.map_cons, List.map_nil, List.sum_cons, List.sum_nil]
      rw [← new_cache_led, new_cache_led_countLed]
      simp [hx]
    · intro b2 hb2
      rcases List.mem_singleton.1 hb2 with rfl
      intro r hr
      simp at hr
  | cons b bs ih =>
    rw [countAllB_cons] at h0
    have hb0 : b.countLed led = 0 := by omega
    have ht0 : countAllB bs led = 0 := by omega
    have hfb : rangesFwd b.ranges := hf b (List.mem_cons_self _ _)
    have hft : ∀ u ∈ bs, rangesFwd u.ranges := fun u hu => hf u (List.mem_cons_of_mem _ hu)
    have hnc : ¬ (b.contains_led_id led = true) := by
      rw [contains_iff_countLed]
      omega
    simp only [cacheColorB]
    by_cases hbc : b.color = c
    · rw [if_pos hbc, if_neg hnc]
      have hcl := @cache_led_count _ led hfb
      have hcon : (b.cache_led led).contains_led_id led = true := by
        rw [contains_iff_countLed, hcl led]
        simp
      refine ⟨rfl, ?_, ?_, ?_, ?_, ?_⟩
      · simp only [loadColorB, hcon, if_true, cache_led_color, hbc]
      · rw [bucketsSize_cons, bucketsSize_cons, cache_led_size hfb]
        omega
      · rw [countAllB_cons, hcl led]
        have hite : (if led = led then 1 else 0) = 1 := by simp
        rw [hite]
        omega
      · intro x hx
        rw [countAllB_cons, countAllB_cons, hcl x, if_neg hx]
        omega
      · intro b2 hb2
        rcases List.mem_cons.1 hb2 with h | h
        · subst h; exact cache_led_fwd hfb
        · exact hft b2 h
    · rw [if_neg hbc]
      obtain ⟨i1, i2, i3, i4, i5, i6⟩ := ih hft ht0
      have hncb : ¬ (b.contains_led_id led = true) := hnc
      refine ⟨i1, ?_, ?_, ?_, ?_, ?_⟩
      · simp only [loadColorB, hncb, if_false]
        exact i2
      · rw [bucketsSize_cons, bucketsSize_cons, i3]
        omega
      · rw [countAllB_cons, i4]
        omega
      · intro x hx
        rw [countAllB_cons, countAllB_cons, i5 x hx]
      · intro b2 hb2
        rcases List.mem_cons.1 hb2 with h | h
        · subst h; exact hfb
        · exact i6 b2 h

theorem cacheB_stab {bs : List SingleColor} {led led2 : Nat} {c2 : HSVColor}
    (hf : ∀ b ∈ bs, rangesFwd b.ranges) (hne : led2 ≠ led) :
    loadColorB (cacheColorB bs led2 c2).2 led = loadColorB bs led ∧
    countAllB (cacheColorB bs led2 c2).2 led = countAllB bs led ∧
    (∀ b2 ∈ (cacheColorB bs led2 c2).2, rangesFwd b2.ranges) := by
  induction bs with
  | nil =>
    simp only [cacheColorB, new_cache_led]
    refine ⟨?_, ?_, ?_⟩
    · have : SingleColor.contains_led_id ⟨[], [led2], c2⟩ led = false := by
        simp only [SingleColor.contains_led_id]
        simp
        omega
      simp [loadColorB, this]
    · simp only [countAllB, List.map_cons, List.map_nil, List.sum_cons, List.sum_nil]
      rw [← new_cache_led, new_cache_led_countLed, if_neg (Ne.symm hne)]
      rfl
    · intro b2 hb2
      rcases List.mem_singleton.1 hb2 with rfl
      intro r hr
      simp at hr
  | cons b bs ih =>
    have hfb : rangesFwd b.ranges := hf b (List.mem_cons_self _ _)
    have hft : ∀ u ∈ bs, rangesFwd u.ranges := fun u hu => hf u (List.mem_cons_of_mem _ hu)
    simp only [cacheColorB]
    by_cases hbc : b.color = c2
    · rw [if_pos hbc]
      by_cases hcon : b.contains_led_id led2 = true
      · rw [if_pos hcon]
        exact ⟨rfl, rfl, hf⟩
      · rw [if_neg hcon]
        have hcl := @cache_led_count _ led2 hfb
        have hcount : (b.cache_led led2).countLed led = b.countLed led := by
          rw [hcl led, if_neg (Ne.symm hne)]
          omega
        have hconiff : ((b.cache_led led2).contains_led_id led = true)
            ↔ (b.contains_led_id led = true) := by
          rw [contains_iff_countLed, contains_iff_countLed, hcount]
        refine ⟨?_, ?_, ?_⟩
        · rw [loadColorB, loadColorB]
          by_cases hbl : b.contains_led_id led = true
          · rw [if_pos hbl, if_pos (hconiff.2 hbl), cache_led_color]
          · rw [if_neg hbl, if_neg (fun hcc => hbl (hconiff.1 hcc))]
        · rw [countAllB_cons, countAllB_cons, hcount]
        · intro b2 hb2
          rcases List.mem_cons.1 hb2 with h | h
          · subst h; exact cache_led_fwd hfb
          · exact hft b2 h
    · rw [if_neg hbc]
      obtain ⟨i1, i2, i3⟩ := ih hft
      refine ⟨?_, ?_, ?_⟩
      · rw [loadColorB, loadColorB]
        by_cases hbl : b.contains_led_id led = true
        · rw [if_pos hbl, if_pos hbl]
        · rw [if_neg hbl, if_neg hbl]
          exact i1
      · rw [countAllB_cons, countAllB_cons, i2]
      · intro b2 hb2
        rcases List.mem_cons.1 hb2 with h | h
        · subst h; exact hfb
        · exact i3 b2 h

theorem removeB_unique {bs : List SingleColor} {led : Nat}
    (hf : ∀ b ∈ bs, rangesFwd b.ranges) (h1 : countAllB bs led = 1) :
    loadColorB (removeCacheB bs led).2 led = none ∧
    bucketsSize (removeCacheB bs led).2 + 1 = bucketsSize bs := by
  induction bs with
  | nil => simp [countAllB] at h1
  | cons b bs ih =>
    have hfb : rangesFwd b.ranges := hf b (List.mem_cons_self _ _)
    have hft : ∀ u ∈ bs, rangesFwd u.ranges := fun u hu => hf u (List.mem_cons_of_mem _ hu)
    rw [countAllB_cons] at h1
    by_cases hb : 0 < b.countLed led
    · have hbl : b.countLed led = 1 := by omega
      have ht0 : countAllB bs led = 0 := by omega
      obtain ⟨u1, u2, u3, u4, u5, u6⟩ := uncache_led_present hb
      rw [removeCacheB]
      rcases hUL : b.uncache_led led with ⟨b2, flag⟩
      rw [hUL] at u1 u2 u4
      dsimp only at u1
      subst u1
      simp only []
      have hb2c : b2.countLed led = 0 := by
        rw [hUL] at *
        dsimp only at u2
        omega
      have hncon : ¬ (b2.contains_led_id led = true) := by
        rw [contains_iff_countLed]
        omega
      constructor
      · rw [loadColorB, if_neg hncon]
        exact loadB_none_iff.2 ht0
      · rw [bucketsSize_cons, bucketsSize_cons]
        dsimp only at u4
        omega
    · have hb0 : b.countLed led = 0 := by omega
      have ht1 : countAllB bs led = 1 := by omega
      have habs := uncache_led_absent hb0
      rw [removeCacheB, habs]
      simp only []
      obtain ⟨i1, i2⟩ := ih hft ht1
      have hncon : ¬ (b.contains_led_id led = true) := by
        rw [contains_iff_countLed]
        omega
      constructor
      · rw [loadColorB, if_neg hncon]
        exact i1
      · rw [bucketsSize_cons, bucketsSize_cons]
        omega

theorem load_color_none_iff {s : ColorCache} {x : Nat} :
    s.load_color x = none ↔ s.countAll x = 0 := by
  cases s with
  | none => simp [ColorCache.load_color, ColorCache.countAll]
  | some bs => exact loadB_none_iff

theorem cache_color_absent {s : ColorCache} {led : Nat} {c : HSVColor}
    (hwf : s.wfFwd) (h0 : s.load_color led = none) :
    (s.cache_color led c).1 = none ∧
    (s.cache_color led c).2.load_color led = some c ∧
    (s.cache_color led c).2.cache_size = s.cache_size + 1 ∧
    (s.cache_color led c).2.countAll led = 1 ∧
    (s.cache_color led c).2.wfFwd := by
  cases s with
  | none =>
    have hf : ∀ b ∈ [SingleColor.new c], rangesFwd b.ranges := by
      intro b hb
      rcases List.mem_singleton.1 hb with rfl
      intro r hr
      simp [SingleColor.new] at hr
    have h0b : countAllB [SingleColor.new c] led = 0 := by
      simp [countAllB, countLed_def, SingleColor.new, rangesCnt]
    obtain ⟨a1, a2, a3, a4, a5, a6⟩ := cacheB_absent (c := c) hf h0b
    refine ⟨a1, a2, ?_, a4, a6⟩
    have hz : bucketsSize [SingleColor.new c] = 0 := by
      simp [bucketsSize, SingleColor.cached_size, SingleColor.new]
    rw [hz] at a3
    simpa [ColorCache.cache_color, ColorCache.cache_size, bucketsSize] using a3
  | some bs =>
    have h0b : countAllB bs led = 0 := loadB_none_iff.1 h0
    obtain ⟨a1, a2, a3, a4, a5, a6⟩ := cacheB_absent (c := c) hwf h0b
    exact ⟨a1, a2, by simpa [bucketsSize] using a3, a4, a6⟩

theorem cache_color_stab {s : ColorCache} {led led2 : Nat} {c c2 : HSVColor}
    (hwf : s.wfFwd) (hne : led2 ≠ led) (hld : s.load_color led = some c) :
    (s.cache_color led2 c2).2.load_color led = some c ∧
    (s.cache_color led2 c2).2.countAll led = s.countAll led ∧
    (s.cache_color led2 c2).2.wfFwd := by
  cases s with
  | none => simp [ColorCache.load_color] at hld
  | some bs =>
    obtain ⟨b1, b2, b3⟩ := @cacheB_stab _ _ _ c2 hwf hne
    refine ⟨?_, b2, b3⟩
    simp only [ColorCache.cache_color, ColorCache.load_color]
    rw [b1]
    exact hld

theorem applyCaches_stab {led : Nat} {c : HSVColor} (ops : List (Nat × HSVColor)) :
    ∀ s : ColorCache, s.wfFwd → s.load_color led = some c → s.countAll led = 1 →
    (∀ p ∈ ops, p.1 ≠ led) →
    (applyCaches ops s).load_color led = some c ∧
    (applyCaches ops s).countAll led = 1 ∧
    (applyCaches ops s).wfFwd := by
  induction ops with
  | nil => intro s h1 h2 h3 _; exact ⟨h2, h3, h1⟩
  | cons p ops ih =>
    intro s h1 h2 h3 hall
    have hp : p.1 ≠ led := hall p (List.mem_cons_self _ _)
    obtain ⟨s1, s2, s3⟩ := @cache_color_stab _ _ _ _ p.2 h1 hp h2
    have hall2 : ∀ q ∈ ops, q.1 ≠ led := fun q hq => hall q (List.mem_cons_of_mem _ hq)
    have : applyCaches (p :: ops) s = applyCaches ops (s.cache_color p.1 p.2).2 := rfl
    rw [this]
    exact ih _ s3 s1 (by rw [s2, h3]) hall2

theorem remove_cache_unique {s : ColorCache} {led : Nat}
    (hwf : s.wfFwd) (h1 : s.countAll led = 1) :
    (s.remove_cache led).2.load_color led = none ∧
    (s.remove_cache led).2.cache_size + 1 = s.cache_size := by
  cases s with
  | none => simp [ColorCache.countAll] at h1
  | some bs =>
    obtain ⟨d1, d2⟩ := removeB_unique hwf h1
    exact ⟨d1, by simpa [bucketsSize] using d2⟩

theorem cacheB_idem {bs : List SingleColor} {led : Nat} {c : HSVColor}
    (h : inColorBucketB bs led c) : cacheColorB bs led c = (some c, bs) := by
  induction bs with
  | nil => exact absurd h (fun hf => hf)
  | cons b bs ih =>
    unfold inColorBucketB at h
    simp only [cacheColorB]
    by_cases hbc : b.color = c
    · rw [if_pos hbc] at h
      rw [if_pos hbc, if_pos h, hbc]
    · rw [if_neg hbc] at h
      rw [if_neg hbc, ih h]

/-- C1 (counterexample).  LED 0 is cached with color `(0,0,0)`; a second
`cache_color` for the same LED with the different color `(1,0,0)` returns
`None` (not the cached color) and mutates the cache, contradicting the claim
that any `cache_color` on an already-cached LED returns the existing color
without mutation. -/
theorem c1_counterexample :
    (ColorCache.new.cache_color 0 ⟨0,0,0⟩).2.load_color 0 = some ⟨0,0,0⟩ ∧
    ((ColorCache.new.cache_color 0 ⟨0,0,0⟩).2.cache_color 0 ⟨1,0,0⟩).1 = none ∧
    ((ColorCache.new.cache_color 0 ⟨0,0,0⟩).2.cache_color 0 ⟨1,0,0⟩).2
      ≠ (ColorCache.new.cache_color 0 ⟨0,0,0⟩).2 := by
  refine ⟨by decide, by decide, by decide⟩

/-- C1 (amended).  If `led` is already recorded in the bucket that
`cache_color` selects for color `c` (the first bucket of exactly that color),
then `cache_color(led, c)` returns `Some c` and leaves the entire cache state
unchanged.  (When `led` is cached only under a different color the call is
not a no-op: it returns `None` and inserts `led` into the bucket of `c`, as
the counterexample shows.) -/
theorem c1_cache_color_same_color_noop (s : ColorCache) (led : Nat) (c : HSVColor)
    (h : s.inBucket led c) : s.cache_color led c = (some c, s) := by
  cases s with
  | none => exact absurd h (fun hf => hf)
  | some bs =>
    have := @cacheB_idem _ led c h
    simp only [ColorCache.cache_color, this]

/-- C1 witness: a concrete cache holding LED 4 under color `(0,0,0)`. -/
theorem c1_cache_color_same_color_noop_witness :
    ((ColorCache.new.cache_color 4 ⟨0,0,0⟩).2).inBucket 4 ⟨0,0,0⟩ ∧
    ((ColorCache.new.cache_color 4 ⟨0,0,0⟩).2).cache_color 4 ⟨0,0,0⟩
      = (some ⟨0,0,0⟩, (ColorCache.new.cache_color 4 ⟨0,0,0⟩).2) :=
  ⟨by decide, c1_cache_color_same_color_noop _ 4 ⟨0,0,0⟩ (by decide)⟩

/-- C8.  On a well-formed cache state that does not hold `led`, caching
`(led, c)` makes `load_color led` return `c` and grows `cache_size` by
exactly 1; this persists across further `cache_color` calls for other LEDs
(any colors), and a subsequent `remove_cache led` makes `load_color led`
return not-found and shrinks `cache_size` by exactly 1. -/
theorem c8_cache_roundtrip (s : ColorCache) (led : Nat) (c : HSVColor)
    (ops : List (Nat × HSVColor))
    (hwf : s.wfFwd) (habs : s.load_color led = none)
    (hops : ∀ p ∈ ops, p.1 ≠ led) :
    (s.cache_color led c).2.load_color led = some c ∧
    (s.cache_color led c).2.cache_size = s.cache_size + 1 ∧
    (applyCaches ops (s.cache_color led c).2).load_color led = some c ∧
    ((applyCaches ops (s.cache_color led c).2).remove_cache led).2.load_color led = none ∧
    ((applyCaches ops (s.cache_color led c).2).remove_cache led).2.cache_size + 1
      = (applyCaches ops (s.cache_color led c).2).cache_size := by
  obtain ⟨a1, a2, a3, a4, a5⟩ := cache_color_absent (c := c) hwf habs
  obtain ⟨s1, s2, s3⟩ := applyCaches_stab ops _ a5 a2 a4 hops
  obtain ⟨r1, r2⟩ := remove_cache_unique s3 s2
  exact ⟨a2, a3, s1, r1, r2⟩

/-- C8 witness: cache LED 3 on the empty cache, interleave a `cache_color`
for LED 5 with another color, then remove LED 3. -/
theorem c8_cache_roundtrip_witness :
    ColorCache.new.wfFwd ∧ ColorCache.new.load_color 3 = none ∧
    (∀ p ∈ [((5 : Nat), (⟨1,0,0⟩ : HSVColor))], p.1 ≠ 3) ∧
    ((ColorCache.new.cache_color 3 ⟨0,0,0⟩).2.load_color 3 = some ⟨0,0,0⟩ ∧
     (ColorCache.new.cache_color 3 ⟨0,0,0⟩).2.cache_size = ColorCache.new.cache_size + 1 ∧
     (applyCaches [(5, ⟨1,0,0⟩)] (ColorCache.new.cache_color 3 ⟨0,0,0⟩).2).load_color 3
        = some ⟨0,0,0⟩ ∧
     ((applyCaches [(5, ⟨1,0,0⟩)] (ColorCache.new.cache_color 3 ⟨0,0,0⟩).2).remove_cache
        3).2.load_color 3 = none ∧
     ((applyCaches [(5, ⟨1,0,0⟩)] (ColorCache.new.cache_color 3 ⟨0,0,0⟩).2).remove_cache
        3).2.cache_size + 1
        = (applyCaches [(5, ⟨1,0,0⟩)] (ColorCache.new.cache_color 3 ⟨0,0,0⟩).2).cache_size) :=
  ⟨trivial, rfl, by decide,
    c8_cache_roundtrip ColorCache.new 3 ⟨0,0,0⟩ [(5, ⟨1,0,0⟩)] trivial rfl (by decide)⟩

theorem new_bucketInv (c : HSVColor) : bucketInv (SingleColor.new c) := by
  constructor
  · intro r hr
    simp [SingleColor.new] at hr
  · intro x
    simp [countLed_def, SingleColor.new, rangesCnt]

theorem cacheB_inv {bs : List SingleColor} {led : Nat} {c : HSVColor}
    (h : ∀ b ∈ bs, bucketInv b) :
    (∀ b2 ∈ (cacheColorB bs led c).2, bucketInv b2) ∧
    ((cacheColorB bs led c).2.map SingleColor.color = bs.map SingleColor.color ∨
      ((cacheColorB bs led c).2.map SingleColor.color
          = bs.map SingleColor.color ++ [c] ∧ c ∉ bs.map SingleColor.color)) := by
  induction bs with
  | nil =>
    simp only [cacheColorB]
    constructor
    · intro b2 hb2
      rcases List.mem_singleton.1 hb2 with rfl
      rw [new_cache_led]
      constructor
      · intro r hr
        simp at hr
      · intro x
        rw [← new_cache_led, new_cache_led_countLed]
        split_ifs <;> omega
    · right
      rw [new_cache_led]
      simp
  | cons b bs ih =>
    have hb : bucketInv b := h b (List.mem_cons_self _ _)
    have ht : ∀ u ∈ bs, bucketInv u := fun u hu => h u (List.mem_cons_of_mem _ hu)
    simp only [cacheColorB]
    by_cases hbc : b.color = c
    · rw [if_pos hbc]
      by_cases hcon : b.contains_led_id led = true
      · rw [if_pos hcon]
        exact ⟨h, Or.inl rfl⟩
      · rw [if_neg hcon]
        have hb0 : b.countLed led = 0 := by
          by_contra hnz
          exact hcon ((contains_iff_countLed b led).2 (by omega))
        have hcl := @cache_led_count _ led hb.1.fwd
        constructor
        · intro b2 hb2
          rcases List.mem_cons.1 hb2 with hx | hx
          · subst hx
            refine ⟨cache_led_len2 hb.1, ?_⟩
            intro x
            rw [hcl x]
            have := hb.2 x
            rcases eq_or_ne x led with rfl | hne
            · rw [if_pos rfl]; omega
            · rw [if_neg hne]; omega
          · exact ht b2 hx
        · left
          simp [cache_led_color]
    · rw [if_neg hbc]
      obtain ⟨i1, i2⟩ := ih ht
      constructor
      · intro b2 hb2
        rcases List.mem_cons.1 hb2 with hx | hx
        · subst hx; exact hb
        · exact i1 b2 hx
      · rcases i2 with hsame | ⟨happ, hnotin⟩
        · left; simp [hsame]
        · right
          constructor
          · simp [happ]
          · simp only [List.map_cons, List.mem_cons]
            rintro (hcc | hcc)
            · exact hbc hcc.symm
            · exact hnotin hcc

theorem uncache_led_inv {b : SingleColor} {led : Nat} (h : bucketInv b) :
    bucketInv ((b.uncache_led led).1) := by
  by_cases hc : 0 < b.countLed led
  · obtain ⟨u1, u2, u3, u4, u5, u6⟩ := uncache_led_present hc
    refine ⟨u6 h.1, ?_⟩
    intro x
    rcases eq_or_ne x led with rfl | hne
    · have := h.2 x
      omega
    · rw [u3 x hne]
      exact h.2 x
  · have h0 : b.countLed led = 0 := by omega
    rw [uncache_led_absent h0]
    exact h

theorem removeB_inv {bs : List SingleColor} {led : Nat}
    (h : ∀ b ∈ bs, bucketInv b) :
    (∀ b2 ∈ (removeCacheB bs led).2, bucketInv b2) ∧
    (removeCacheB bs led).2.map SingleColor.color = bs.map SingleColor.color := by
  induction bs with
  | nil => exact ⟨fun b hb => absurd hb (by simp [removeCacheB]), rfl⟩
  | cons b bs ih =>
    have hb : bucketInv b := h b (List.mem_cons_self _ _)
    have ht : ∀ u ∈ bs, bucketInv u := fun u hu => h u (List.mem_cons_of_mem _ hu)
    rw [removeCacheB]
    rcases hUL : b.uncache_led led with ⟨b2, flag⟩
    have hb2 : bucketInv b2 := by
      have := @uncache_led_inv _ led hb
      rw [hUL] at this
      exact this
    have hb2c : b2.color = b.color := by
      have := uncache_led_color b led
      rw [hUL] at this
      exact this
    cases flag with
    | true =>
      simp only []
      constructor
      · intro u hu
        rcases List.mem_cons.1 hu with hx | hx
        · subst hx; exact hb2
        · exact ht u hx
      · simp [hb2c]
    | false =>
      simp only []
      obtain ⟨i1, i2⟩ := ih ht
      constructor
      · intro u hu
        rcases List.mem_cons.1 hu with hx | hx
        · subst hx; exact hb2
        · exact i1 u hx
      · simp [hb2c, i2]

theorem applyOp_inv {s : ColorCache} (op : CacheOp) (h : cacheInv s) :
    cacheInv (applyOp s op) := by
  cases op with
  | cache led c =>
    cases s with
    | none =>
      show cacheInv (some (cacheColorB [SingleColor.new c] led c).2)
      have hbase : ∀ b ∈ [SingleColor.new c], bucketInv b := by
        intro b hb
        rcases List.mem_singleton.1 hb with rfl
        exact new_bucketInv c
      obtain ⟨i1, i2⟩ := @cacheB_inv _ led c hbase
      refine ⟨i1, ?_⟩
      rcases i2 with hsame | ⟨happ, hnotin⟩
      · rw [hsame]; simp [SingleColor.new]
      · rw [happ]
        rw [← List.concat_eq_append]
        exact List.Nodup.concat hnotin (by simp [SingleColor.new])
    | some bs =>
      obtain ⟨h1, h2⟩ := h
      show cacheInv (some (cacheColorB bs led c).2)
      obtain ⟨i1, i2⟩ := @cacheB_inv _ led c h1
      refine ⟨i1, ?_⟩
      rcases i2 with hsame | ⟨happ, hnotin⟩
      · rw [hsame]; exact h2
      · rw [happ, ← List.concat_eq_append]
        exact List.Nodup.concat hnotin h2
  | put led =>
    cases s with
    | none => exact trivial
    | some bs =>
      obtain ⟨h1, h2⟩ := h
      show cacheInv (some (removeCacheB bs led).2)
      obtain ⟨i1, i2⟩ := @removeB_inv _ led h1
      exact ⟨i1, by rw [i2]; exact h2⟩

theorem applyOps_inv (ops : List CacheOp) :
    ∀ s : ColorCache, cacheInv s → cacheInv (applyOps ops s) := by
  induction ops with
  | nil => exact fun s h => h
  | cons op ops ih =>
    intro s h
    exact ih _ (applyOp_inv op h)

/-- C2 (counterexample).  Two reachable states violate the claimed invariant:
caching LEDs 4, 6, 5 under one color yields the bucket
`ranges = [4..6], single_led = [6]` whose range end is adjacent to the stored
single 6 (the merge logic never re-checks the remaining singles); and caching
LED 0 under two different colors records LED 0 in two buckets at once. -/
theorem c2_counterexample :
    ¬ specClaimInv (applyOps [.cache 4 ⟨0,0,0⟩, .cache 6 ⟨0,0,0⟩, .cache 5 ⟨0,0,0⟩]
        ColorCache.new) ∧
    ¬ specClaimInv (applyOps [.cache 0 ⟨0,0,0⟩, .cache 0 ⟨1,0,0⟩] ColorCache.new) := by
  constructor
  · intro h
    have hstate : applyOps [.cache 4 ⟨0,0,0⟩, .cache 6 ⟨0,0,0⟩, .cache 5 ⟨0,0,0⟩]
        ColorCache.new = some [⟨[⟨4, 6⟩], [6], ⟨0,0,0⟩⟩] := by decide
    rw [hstate] at h
    obtain ⟨_, h2⟩ := h
    have := (h2 ⟨[⟨4, 6⟩], [6], ⟨0,0,0⟩⟩ (by simp)).2 ⟨4, 6⟩ (by simp) 6 (by simp)
    exact this.2.1 rfl
  · intro h
    have hstate : applyOps [.cache 0 ⟨0,0,0⟩, .cache 0 ⟨1,0,0⟩] ColorCache.new
        = some [⟨[], [0], ⟨0,0,0⟩⟩, ⟨[], [0], ⟨1,0,0⟩⟩] := by decide
    rw [hstate] at h
    obtain ⟨h1, _⟩ := h
    exact absurd (h1 0) (by decide)

/-- C2 (amended).  Starting from the empty `ColorCache`, every sequence of
`cache_color` and `remove_cache` operations preserves: bucket colors are
pairwise distinct (so a LED is in at most one bucket per color), every stored
range has length at least 2, and within each bucket the ranges are pairwise
disjoint, disjoint from the singles, and the singles are duplicate-free
(together: no LED occurs twice within a bucket).  The claimed stronger
invariant fails: a LED may be cached in buckets of two different colors at
once, and maximality is not maintained — a stored range may be adjacent to
another range or to a stored single, as the counterexample shows. -/
theorem c2_cache_invariant (ops : List CacheOp) :
    cacheInv (applyOps ops ColorCache.new) :=
  applyOps_inv ops ColorCache.new trivial

theorem mlen_le_u16 : ∀ m : IMap, WFMap m → mlen m ≤ u16Max := by
  intro m
  induction m with
  | range s e =>
    intro h
    obtain ⟨h1, h2⟩ := h
    unfold mlen
    omega
  | arr xs => intro h; exact h
  | rev m ih => exact fun h => ih h
  | nth m n ih =>
    intro h
    unfold mlen
    exact le_trans (Nat.div_le_self _ _) (ih h.1)
  | circ m k ih => exact fun h => ih h.1
  | bounded m f b ih =>
    intro h
    unfold mlen
    have := ih h.1
    omega
  | half m lower u ih =>
    intro h
    have hm := ih h
    unfold mlen
    rcases lower <;> rcases u <;> simp only [] <;> split_ifs <;> omega
  | mirrored m u ih =>
    intro h
    have hm := ih h.1
    unfold mlen
    rcases u <;> simp only [] <;> split_ifs <;> omega

/-- C5 (amended, provable part).  For every well-formed nesting of the
combinators over a base range, slice or array, `index(i)` succeeds for every
ordinal `i` in `[0, len())`, and yields a single led id whenever the map is
single-output.  (The out-of-domain half of the claim fails, see the
counterexample: the slice/array base panics instead of returning an error,
and `every_nth` or the lower `split_into_half` map can even succeed on
ordinals at or above `len()`.) -/
theorem c5_index_ok_in_domain : ∀ m : IMap, WFMap m → ∀ i, i < mlen m →
    ∃ ids, midx m i = .ok ids ∧ (singleOut m → ids.length = 1) := by
  intro m
  induction m with
  | range s e =>
    intro h i hi
    obtain ⟨h1, h2⟩ := h
    unfold mlen at hi
    refine ⟨[s + i], ?_, fun _ => rfl⟩
    unfold midx
    rw [if_neg (by omega), if_neg (by omega)]
  | arr xs =>
    intro h i hi
    unfold mlen at hi
    refine ⟨[xs.get ⟨i, hi⟩], ?_, fun _ => rfl⟩
    unfold midx
    rw [dif_pos hi]
  | rev m ih =>
    intro h i hi
    unfold mlen at hi
    have hle := mlen_le_u16 m h
    obtain ⟨ids, hids, hsing⟩ := ih h (mlen m - i - 1) (by omega)
    refine ⟨ids, ?_, hsing⟩
    unfold midx
    rw [if_neg (by omega), if_neg (by omega)]
    exact hids
  | nth m n ih =>
    intro h i hi
    obtain ⟨hwm, hn1, hn2⟩ := h
    unfold mlen at hi
    have hle := mlen_le_u16 m hwm
    have hdm : mlen m / n * n ≤ mlen m := Nat.div_mul_le_self _ _
    have hmul : (i + 1) * n ≤ (mlen m / n) * n := Nat.mul_le_mul_right n (by omega)
    have hsucc : (i + 1) * n = i * n + n := by ring
    rw [hsucc] at hmul
    have hlt : i * n < mlen m := by omega
    obtain ⟨ids, hids, hsing⟩ := ih hwm (i * n) hlt
    refine ⟨ids, ?_, hsing⟩
    unfold midx
    rw [if_neg (by omega), if_neg (by omega)]
    exact hids
  | circ m k ih =>
    intro h i hi
    obtain ⟨hwm, hk, hfit⟩ := h
    unfold mlen at hi
    have hle := mlen_le_u16 m hwm
    by_cases hneg : (i : Int) + k < 0
    · have habs : ((i : Int) + k).natAbs ≤ k.natAbs := by omega
      have habs1 : 1 ≤ ((i : Int) + k).natAbs := by omega
      obtain ⟨ids, hids, hsing⟩ := ih hwm (mlen m - ((i : Int) + k).natAbs) (by omega)
      refine ⟨ids, ?_, hsing⟩
      unfold midx
      rw [if_neg (by omega), if_neg (by omega), if_pos hneg, if_neg (by omega),
        if_neg (by omega)]
      exact hids
    · have ht : ((i : Int) + k).toNat ≤ u16Max := by omega
      obtain ⟨ids, hids, hsing⟩ :=
        ih hwm (((i : Int) + k).toNat % mlen m) (Nat.mod_lt _ (by omega))
      refine ⟨ids, ?_, hsing⟩
      unfold midx
      rw [if_neg (by omega), if_neg (by omega), if_neg hneg, if_neg (by omega)]
      exact hids
  | bounded m f b ih =>
    intro h i hi
    obtain ⟨hwm, hoff, habs⟩ := h
    have hle := mlen_le_u16 m hwm
    have hexp : mlen (.bounded m f b) = mlen m - frontOff f - endOff b (mlen m) := rfl
    obtain ⟨ids, hids, hsing⟩ := ih hwm (i + frontOff f) (by omega)
    refine ⟨ids, ?_, hsing⟩
    unfold midx
    rw [if_neg (by omega), if_neg (by omega), if_neg (by omega), if_neg (by omega)]
    exact hids
  | half m lower u ih =>
    intro h i hi
    have hle := mlen_le_u16 m h
    have hhl : mlen (.half m lower u) ≤ mlen m := by
      simp only [mlen]
      rcases lower <;> rcases u <;> simp only [] <;> split_ifs <;> omega
    cases lower with
    | true =>
      obtain ⟨ids, hids, hsing⟩ := ih h i (by omega)
      refine ⟨ids, ?_, hsing⟩
      unfold midx
      rw [if_pos rfl]
      exact hids
    | false =>
      obtain ⟨ids, hids, hsing⟩ :=
        ih h (i + (mlen m - mlen (.half m false u))) (by omega)
      refine ⟨ids, ?_, hsing⟩
      unfold midx
      rw [if_neg (by simp), if_neg (by omega), if_neg (by omega)]
      exact hids
  | mirrored m u ih =>
    intro h i hi
    obtain ⟨hwm, hso⟩ := h
    have hle := mlen_le_u16 m hwm
    have hml : mlen (.mirrored m u) ≤ mlen m := by
      simp only [mlen]
      rcases u <;> simp only [] <;> split_ifs <;> omega
    obtain ⟨ids1, hids1, hsing1⟩ := ih hwm i (by omega)
    obtain ⟨ids2, hids2, hsing2⟩ := ih hwm (mlen m - i - 1) (by omega)
    obtain ⟨a, rfl⟩ := List.length_eq_one.1 (hsing1 hso)
    obtain ⟨b2, rfl⟩ := List.length_eq_one.1 (hsing2 hso)
    refine ⟨[a, b2], ?_, fun hf => hf.elim⟩
    unfold midx
    rw [if_neg (by omega), if_neg (by omega), if_neg (by omega), if_neg (by omega),
      hids1, hids2]

/-- C5 (counterexample).  Out-of-domain ordinals are not uniformly rejected
with an error value: the array base panics (`self[usize::from(index)]` is an
unchecked slice access); `every_nth` can even succeed on an out-of-domain
ordinal (stride 3 over `0..5` has `len() = 1` but `index(1) = Ok(3)`); the
lower `split_into_half` map forwards any ordinal to its inner map unchecked
(`len() = 5` but `index(7) = Ok(7)`). -/
theorem c5_counterexample :
    midx (.arr [1, 2, 3]) 5 = .panic ∧
    mlen (.nth (.range 0 5) 3) = 1 ∧ midx (.nth (.range 0 5) 3) 1 = .ok [3] ∧
    mlen (.half (.range 0 10) true .Exclude) = 5 ∧
    midx (.half (.range 0 10) true .Exclude) 7 = .ok [7] := by
  refine ⟨by decide, by decide, by decide, by decide, by decide⟩

/-- C5 witness: the bounded map of the repository's own test
(`[0..=8]` bounded by `Absolute(2)` and `Relative(2)`, length 5). -/
theorem c5_index_ok_in_domain_witness :
    WFMap (.bounded (.arr [0, 1, 2, 3, 4, 5, 6, 7, 8]) (.abs 2) (.rel 2)) ∧
    0 < mlen (.bounded (.arr [0, 1, 2, 3, 4, 5, 6, 7, 8]) (.abs 2) (.rel 2)) ∧
    (∃ ids, midx (.bounded (.arr [0, 1, 2, 3, 4, 5, 6, 7, 8]) (.abs 2) (.rel 2)) 0
        = .ok ids ∧
      (singleOut (.bounded (.arr [0, 1, 2, 3, 4, 5, 6, 7, 8]) (.abs 2) (.rel 2)) →
        ids.length = 1)) :=
  ⟨by decide, by decide,
    c5_index_ok_in_domain (.bounded (.arr [0, 1, 2, 3, 4, 5, 6, 7, 8]) (.abs 2) (.rel 2))
      (by decide) 0 (by decide)⟩

/-- C7 (amended).  With `|k| < M.len()`, `M.len()` within `u16`, and the
shifted ordinal `i + k` also within `u16` (automatic for `M.len() <= 2^15`),
`circularOffset(M, k).index(i)` equals `M.index((i + k) mod M.len())` with
the mathematical (euclidean) modulus for every `i < M.len()`, and every
ordinal at or above `M.len()` is rejected with `IndexOutOfBounds`.  (Without
the `u16` headroom the conversion `Index::try_from(index + offset)` panics,
see the counterexample.) -/
theorem c7_circular_offset (m : IMap) (k : Int) (i : Nat)
    (hk : k.natAbs < mlen m) (hlen : mlen m ≤ u16Max) (hi : i < mlen m)
    (hfit : (i : Int) + k ≤ (u16Max : Int)) :
    midx (.circ m k) i = midx m (((i : Int) + k).emod (mlen m)).toNat ∧
    ∀ j, mlen m ≤ j → midx (.circ m k) j = .err .IndexOutOfBounds := by
  constructor
  · simp only [midx]
    rw [if_neg (by omega), if_neg (by omega)]
    by_cases hneg : (i : Int) + k < 0
    · rw [if_pos hneg]
      have habs : ((i : Int) + k).natAbs ≤ k.natAbs := by omega
      have habs1 : 1 ≤ ((i : Int) + k).natAbs := by omega
      rw [if_neg (by omega), if_neg (by omega)]
      have harg : mlen m - ((i : Int) + k).natAbs = (((i : Int) + k).emod (mlen m)).toNat := by
        have h1 : (0 : Int) ≤ (i : Int) + k + mlen m := by omega
        have h2 : (i : Int) + k + mlen m < (mlen m : Int) := by omega
        have heq : ((i : Int) + k).emod (mlen m) = (i : Int) + k + mlen m := by
          have hsh : ((i : Int) + k + (mlen m : Int) * 1).emod (mlen m)
              = ((i : Int) + k).emod (mlen m) := Int.add_mul_emod_self_left _ _ _
          rw [mul_one] at hsh
          rw [← hsh]
          exact Int.emod_eq_of_lt h1 h2
        omega
      rw [harg]
    · rw [if_neg hneg]
      rw [if_neg (by omega)]
      have harg : ((i : Int) + k).toNat % mlen m = (((i : Int) + k).emod (mlen m)).toNat := by
        obtain ⟨a, ha⟩ : ∃ a : Nat, (i : Int) + k = a := ⟨((i : Int) + k).toNat, by omega⟩
        rw [ha]
        have hcast : ((a : Int)).emod ((mlen m : Nat) : Int) = ((a % mlen m : Nat) : Int) := by
          show ((a : Int)) % ((mlen m : Nat) : Int) = ((a % mlen m : Nat) : Int)
          exact (Int.natCast_mod a (mlen m)).symm
        rw [hcast, Int.toNat_natCast, Int.toNat_natCast]
      rw [harg]
  · intro j hj
    simp only [midx]
    rw [if_neg (by omega), if_pos hj]

/-- C7 (counterexample).  For a large inner map the conversion of `i + k`
through `u16` panics even in-domain: with `M = 0..40000`, `k = 39999` and
`i = 39999` the circular map panics while `M.index((i + k) mod M.len())`
succeeds, so the claimed equality fails without the `u16` headroom bound. -/
theorem c7_counterexample :
    (Int.natAbs 39999) < mlen (.range 0 40000) ∧
    (39999 : Nat) < mlen (.range 0 40000) ∧
    midx (.circ (.range 0 40000) 39999) 39999 = .panic ∧
    midx (.range 0 40000) (((39999 : Int) + 39999).emod (mlen (.range 0 40000))).toNat
      = .ok [39998] := by
  refine ⟨by decide, by decide, by decide, by decide⟩

/-- C7 witness: the doctest of `CircularIndexed` (`[0..=8]` with offset 2,
`index(0) = 2`). -/
theorem c7_circular_offset_witness :
    (Int.natAbs 2) < mlen (.arr [0, 1, 2, 3, 4, 5, 6, 7, 8]) ∧
    mlen (.arr [0, 1, 2, 3, 4, 5, 6, 7, 8]) ≤ u16Max ∧
    (0 : Nat) < mlen (.arr [0, 1, 2, 3, 4, 5, 6, 7, 8]) ∧
    ((0 : Nat) : Int) + 2 ≤ (u16Max : Int) ∧
    (midx (.circ (.arr [0, 1, 2, 3, 4, 5, 6, 7, 8]) 2) 0
        = midx (.arr [0, 1, 2, 3, 4, 5, 6, 7, 8])
            (((((0 : Nat) : Int) + 2).emod (mlen (.arr [0, 1, 2, 3, 4, 5, 6, 7, 8]))).toNat) ∧
     ∀ j, mlen (.arr [0, 1, 2, 3, 4, 5, 6, 7, 8]) ≤ j →
       midx (.circ (.arr [0, 1, 2, 3, 4, 5, 6, 7, 8]) 2) j = .err .IndexOutOfBounds) :=
  ⟨by decide, by decide, by decide, by decide,
    c7_circular_offset (.arr [0, 1, 2, 3, 4, 5, 6, 7, 8]) 2 0
      (by decide) (by decide) (by decide) (by decide)⟩

theorem tlNext_none_filter {es : List TLEntry} {t : Nat}
    (hs : tlSorted es) (h : tlNext es t = none) :
    es.filter (yieldedAt t) = [] := by
  induction es with
  | nil => rfl
  | cons e es ih =>
    rw [tlNext] at h
    by_cases h1 : e.start + e.dur < t
    · rw [if_pos h1] at h
      have hpe : yieldedAt t e = false := by
        simp [yieldedAt]
        omega
      rw [List.filter_cons, hpe]
      simp only [if_false, Bool.false_eq_true, if_neg]
      exact ih (List.Pairwise.of_cons hs) h
    · rw [if_neg h1] at h
      by_cases h2 : e.start < t
      · rw [if_pos h2] at h
        exact absurd h (by simp)
      · rw [List.filter_eq_nil_iff]
        intro a ha
        have hge : t ≤ a.start := by
          rcases List.mem_cons.1 ha with heq | hmem
          · subst heq
            omega
          · have hle := (List.pairwise_cons.1 hs).1 a hmem
            omega
        simp [yieldedAt]
        omega

theorem tlNext_some_filter {es es2 : List TLEntry} {e : TLEntry} {t : Nat}
    (h : tlNext es t = some (e, es2)) :
    es.filter (yieldedAt t) = e :: es2.filter (yieldedAt t) ∧
    es2.length < es.length ∧
    (tlSorted es → tlSorted es2) := by
  induction es generalizing es2 with
  | nil => exact absurd h (by simp [tlNext])
  | cons a es ih =>
    rw [tlNext] at h
    by_cases h1 : a.start + a.dur < t
    · rw [if_pos h1] at h
      obtain ⟨i1, i2, i3⟩ := ih h
      have hpa : yieldedAt t a = false := by
        simp [yieldedAt]
        omega
      refine ⟨?_, by simp; omega, fun hs => i3 (List.Pairwise.of_cons hs)⟩
      rw [List.filter_cons, hpa]
      simpa using i1
    · rw [if_neg h1] at h
      by_cases h2 : a.start < t
      · rw [if_pos h2] at h
        injection h with h
        injection h with hA hB
        subst hA
        subst hB
        have hpa : yieldedAt t a = true := by
          simp [yieldedAt]
          omega
        refine ⟨?_, by simp, fun hs => List.Pairwise.of_cons hs⟩
        rw [List.filter_cons, hpa]
        simp
      · rw [if_neg h2] at h
        exact absurd h (by simp)

theorem tlEnumF_filter {t : Nat} :
    ∀ (fuel : Nat) (es : List TLEntry), es.length < fuel → tlSorted es →
    tlEnumF fuel es t = es.filter (yieldedAt t) := by
  intro fuel
  induction fuel with
  | zero => intro es h; omega
  | succ fuel ih =>
    intro es hlen hs
    rw [tlEnumF]
    cases hN : tlNext es t with
    | none => exact (tlNext_none_filter hs hN).symm
    | some p =>
      obtain ⟨e, es2⟩ := p
      dsimp only
      obtain ⟨f1, f2, f3⟩ := tlNext_some_filter hN
      rw [f1, ih es2 (by omega) (f3 hs)]

/-- C4 (counterexample).  For the single entry `{start 0, duration 5}`, a
full enumeration at tick 0 yields nothing (the claim requires the entry,
since `0 ∈ [0, 5)`), while at tick 5 it yields the entry (the claim forbids
it, since `5 ∉ [0, 5)`): the iterator's interval is `(start, start+dur]`,
not `[start, start+dur)`. -/
theorem c4_counterexample :
    tlEnum [⟨0, 5⟩] 0 = [] ∧ tlEnum [⟨0, 5⟩] 5 = [⟨0, 5⟩] := by
  refine ⟨by decide, by decide⟩

/-- C4 (amended).  For every timeline sorted by start tick and every tick
`t`, one full enumeration of `get_current_entries(t)` yields exactly the
entries with `start < t <= start + duration` — the half-open interval is
`(start, start+duration]`, so an entry with `start == t` is not yielded and
an entry with `t == start + duration` is — in ascending start order (they
appear in timeline order). -/
theorem c4_get_current_entries (es : List TLEntry) (t : Nat) (hs : tlSorted es) :
    tlEnum es t = es.filter (yieldedAt t) :=
  tlEnumF_filter (es.length + 1) es (by omega) hs

/-- C4 witness: the two-entry timeline of the scheduler scenario at tick 12. -/
theorem c4_get_current_entries_witness :
    tlSorted [⟨0, 5⟩, ⟨10, 5⟩] ∧
    tlEnum [⟨0, 5⟩, ⟨10, 5⟩] 12 = List.filter (yieldedAt 12) [⟨0, 5⟩, ⟨10, 5⟩] :=
  ⟨by decide, c4_get_current_entries [⟨0, 5⟩, ⟨10, 5⟩] 12 (by decide)⟩

/-- C6.  The scheduler scenario: two non-repeating animations with start
ticks 0 and 10 and durations 5; updating at tick 3 renders only the first,
at tick 12 only the second, and after the update at tick 20 the processor
reports no work (and renders nothing). -/
theorem c6_scheduler_scenario :
    (TLProc.update (TLProc.new [⟨0, 5⟩, ⟨10, 5⟩] false) 3).2 = [⟨0, 5⟩] ∧
    ((TLProc.update (TLProc.new [⟨0, 5⟩, ⟨10, 5⟩] false) 3).1).has_no_work = false ∧
    (TLProc.update ((TLProc.update (TLProc.new [⟨0, 5⟩, ⟨10, 5⟩] false) 3).1) 12).2
      = [⟨10, 5⟩] ∧
    ((TLProc.update ((TLProc.update (TLProc.new [⟨0, 5⟩, ⟨10, 5⟩] false) 3).1) 12).1).has_no_work
      = false ∧
    ((TLProc.update ((TLProc.update ((TLProc.update (TLProc.new [⟨0, 5⟩, ⟨10, 5⟩] false) 3).1)
        12).1) 20).1).has_no_work = true ∧
    (TLProc.update ((TLProc.update ((TLProc.update (TLProc.new [⟨0, 5⟩, ⟨10, 5⟩] false) 3).1)
        12).1) 20).2 = [] := by
  refine ⟨by decide, by decide, by decide, by decide, by decide, by decide⟩

/-- C9.  `SingleAnimationProcessor::update` marks the processor as having no
work and renders nothing whenever `start + duration > current_tick` (the
animation has not yet fully elapsed); it renders (at local tick
`current_tick - start`, leaving the state unchanged) exactly when
`current_tick >= start + duration`. -/
theorem c9_single_processor_gate (p : SAProc) (t : Nat) :
    (p.start + p.dur > t → p.update t = ({ p with has_finished := true }, none)) ∧
    (p.start + p.dur ≤ t → p.update t = (p, some (t - p.start))) := by
  constructor
  · intro h
    unfold SAProc.update
    rw [if_pos h]
  · intro h
    unfold SAProc.update
    rw [if_neg (by omega)]

/-- C9 witness: a 5-tick animation starting at tick 0, updated at ticks 3
(not yet elapsed: no work, nothing rendered) and 7 (rendered). -/
theorem c9_single_processor_gate_witness :
    ((⟨0, 5, false⟩ : SAProc).start + (⟨0, 5, false⟩ : SAProc).dur > 3 ∧
      SAProc.update ⟨0, 5, false⟩ 3 = (⟨0, 5, true⟩, none)) ∧
    ((⟨0, 5, false⟩ : SAProc).start + (⟨0, 5, false⟩ : SAProc).dur ≤ 7 ∧
      SAProc.update ⟨0, 5, false⟩ 7 = (⟨0, 5, false⟩, some 7)) :=
  ⟨⟨by decide, (c9_single_processor_gate ⟨0, 5, false⟩ 3).1 (by decide)⟩,
   ⟨by decide, (c9_single_processor_gate ⟨0, 5, false⟩ 7).2 (by decide)⟩⟩

/-- C10.  `has_finished` on an empty timeline is true at every tick, so a
non-repeating `TimelineProcessor` over an empty timeline reports no work
after its first update (and renders nothing). -/
theorem c10_empty_timeline_no_work (t : Nat) :
    tlHasFinished [] t = true ∧
    ((TLProc.new [] false).update t).1.has_no_work = true ∧
    ((TLProc.new [] false).update t).2 = [] := by
  refine ⟨rfl, ?_, ?_⟩ <;>
    simp [TLProc.update, TLProc.new, tlHasFinished, TLProc.has_no_work, tlEnum,
      tlEnumF, tlNext]

theorem arRun_succ (fuel : Nat) (s : ARState) :
    arRun (fuel + 1) s = match arNext s with
      | .done => some []
      | .panic => none
      | .yield c s2 => (arRun fuel s2).map (fun cs => c :: cs) := rfl

theorem arRun_inside {L W : Nat} {a : Int} (b : BorderType)
    (hW : 0 < W) (hL : L ≤ u16Max) (h0 : 0 ≤ a) (hIn : a + W ≤ L) :
    arRun 3 ⟨a, W, L, b, 0⟩ = some [⟨a.toNat, 0, W⟩] := by
  have s1 : arNext ⟨a, W, L, b, 0⟩
      = .yield ⟨a.toNat, 0, W⟩ ⟨((W - 0 : Nat) : Int), W, L, b, 0 + (W - 0)⟩ := by
    simp only [arNext]
    rw [if_neg (by omega), if_neg (by omega), if_neg (by omega), if_neg (by omega),
      if_neg (by omega), if_neg (by omega), if_neg (by omega)]
  have s2 : arNext ⟨((W - 0 : Nat) : Int), W, L, b, 0 + (W - 0)⟩ = .done := by
    simp only [arNext]
    rw [if_neg (by omega), if_pos (by omega)]
  rw [show (3 : Nat) = 2 + 1 from rfl, arRun_succ, s1]
  dsimp only
  rw [show (2 : Nat) = 1 + 1 from rfl, arRun_succ, s2]
  rfl

theorem arRun_wrap_negW {L W : Nat} {a : Int}
    (hW : 0 < W) (hWL : W ≤ L) (hL : L ≤ u16Max) (ha : a = -(W : Int)) :
    arRun 3 ⟨a, W, L, .WrappingStartEnd, 0⟩ = some [⟨L - a.natAbs, 0, a.natAbs⟩] := by
  have habs : a.natAbs = W := by omega
  have s1 : arNext ⟨a, W, L, .WrappingStartEnd, 0⟩
      = .yield ⟨L - (a.natAbs - 0), 0, a.natAbs⟩
          ⟨0, W, L, .WrappingStartEnd, 0 + (a.natAbs - 0)⟩ := by
    simp only [arNext]
    rw [if_neg (by omega), if_neg (by omega), if_neg (by omega), if_pos (by omega),
      if_neg (by omega), if_neg (by omega), if_neg (by omega)]
  have s2 : arNext ⟨0, W, L, .WrappingStartEnd, 0 + (a.natAbs - 0)⟩ = .done := by
    simp only [arNext]
    rw [if_neg (by omega), if_pos (by omega)]
  rw [show (3 : Nat) = 2 + 1 from rfl, arRun_succ, s1]
  dsimp only
  rw [show (2 : Nat) = 1 + 1 from rfl, arRun_succ, s2]
  simp

theorem arRun_wrap_neg {L W : Nat} {a : Int}
    (hW : 0 < W) (hWL : W ≤ L) (hL : L ≤ u16Max) (hneg : a < 0) (hgt : -(W : Int) < a) :
    arRun 3 ⟨a, W, L, .WrappingStartEnd, 0⟩
      = some [⟨L - a.natAbs, 0, a.natAbs⟩, ⟨0, a.natAbs, W⟩] := by
  have habs : a.natAbs < W := by omega
  have habs1 : 1 ≤ a.natAbs := by omega
  have s1 : arNext ⟨a, W, L, .WrappingStartEnd, 0⟩
      = .yield ⟨L - (a.natAbs - 0), 0, a.natAbs⟩
          ⟨0, W, L, .WrappingStartEnd, 0 + (a.natAbs - 0)⟩ := by
    simp only [arNext]
    rw [if_neg (by omega), if_neg (by omega), if_neg (by omega), if_pos (by omega),
      if_neg (by omega), if_neg (by omega), if_neg (by omega)]
  have s2 : arNext ⟨0, W, L, .WrappingStartEnd, 0 + (a.natAbs - 0)⟩
      = .yield ⟨0, 0 + (a.natAbs - 0), W⟩
          ⟨((W - (0 + (a.natAbs - 0)) : Nat) : Int), W, L, .WrappingStartEnd,
            0 + (a.natAbs - 0) + (W - (0 + (a.natAbs - 0)))⟩ := by
    simp only [arNext]
    rw [if_neg (by omega), if_neg (by omega), if_neg (by omega), if_neg (by omega),
      if_neg (by omega), if_neg (by omega), if_neg (by omega)]
    rfl
  have s3 : arNext ⟨((W - (0 + (a.natAbs - 0)) : Nat) : Int), W, L, .WrappingStartEnd,
      0 + (a.natAbs - 0) + (W - (0 + (a.natAbs - 0)))⟩ = .done := by
    simp only [arNext]
    rw [if_neg (by omega), if_pos (by omega)]
  rw [show (3 : Nat) = 2 + 1 from rfl, arRun_succ, s1]
  dsimp only
  rw [show (2 : Nat) = 1 + 1 from rfl, arRun_succ, s2]
  dsimp only
  rw [show (1 : Nat) = 0 + 1 from rfl, arRun_succ, s3]
  simp

theorem arRun_wrap_overhang {L W : Nat} {a : Int}
    (hW : 0 < W) (hWL : W ≤ L) (hLW : W + L ≤ u16Max) (h0 : 0 ≤ a) (haL : a ≤ L)
    (hover : (L : Int) < a + W) :
    arRun 3 ⟨a, W, L, .WrappingStartEnd, 0⟩
      = some [⟨a.toNat, 0, L - a.toNat⟩, ⟨0, L - a.toNat, W⟩] := by
  have hstop : W - (a.toNat + (W - 0) - L) = L - a.toNat := by omega
  have s1 : arNext ⟨a, W, L, .WrappingStartEnd, 0⟩
      = .yield ⟨L - ((W - (a.toNat + (W - 0) - L)) - 0), 0, W - (a.toNat + (W - 0) - L)⟩
          ⟨0, W, L, .WrappingStartEnd, 0 + ((W - (a.toNat + (W - 0) - L)) - 0)⟩ := by
    simp only [arNext]
    rw [if_neg (by omega), if_neg (by omega), if_neg (by omega), if_neg (by omega),
      if_pos (by omega), if_neg (by omega), if_neg (by omega), if_neg (by omega),
      if_neg (by omega), if_neg (by omega)]
  have s2 : arNext ⟨0, W, L, .WrappingStartEnd, 0 + ((W - (a.toNat + (W - 0) - L)) - 0)⟩
      = .yield ⟨0, 0 + ((W - (a.toNat + (W - 0) - L)) - 0), W⟩
          ⟨((W - (0 + ((W - (a.toNat + (W - 0) - L)) - 0)) : Nat) : Int), W, L,
            .WrappingStartEnd,
            0 + ((W - (a.toNat + (W - 0) - L)) - 0)
              + (W - (0 + ((W - (a.toNat + (W - 0) - L)) - 0)))⟩ := by
    simp only [arNext]
    rw [if_neg (by omega), if_neg (by omega), if_neg (by omega), if_neg (by omega),
      if_neg (by omega), if_neg (by omega), if_neg (by omega)]
    rfl
  have s3 : arNext ⟨((W - (0 + ((W - (a.toNat + (W - 0) - L)) - 0)) : Nat) : Int), W, L,
      .WrappingStartEnd,
      0 + ((W - (a.toNat + (W - 0) - L)) - 0)
        + (W - (0 + ((W - (a.toNat + (W - 0) - L)) - 0)))⟩ = .done := by
    simp only [arNext]
    rw [if_neg (by omega), if_pos (by omega)]
  rw [show (3 : Nat) = 2 + 1 from rfl, arRun_succ, s1]
  dsimp only
  rw [show (2 : Nat) = 1 + 1 from rfl, arRun_succ, s2]
  dsimp only
  rw [show (1 : Nat) = 0 + 1 from rfl, arRun_succ, s3]
  simp only [Option.map_some', Option.map_none']
  rw [hstop]
  simp
  omega

theorem arRun_clamp_neg {L W : Nat} {a : Int}
    (hW : 0 < W) (hWL : W ≤ L) (hL : L ≤ u16Max) (hneg : a < 0) (hge : -(L : Int) ≤ a) :
    arRun 3 ⟨a, W, L, .ClosedStartEnd, 0⟩ = some [⟨0, a.natAbs, W⟩] := by
  have s1 : arNext ⟨a, W, L, .ClosedStartEnd, 0⟩
      = .yield ⟨0, a.natAbs + 0, W⟩ ⟨0, W, L, .ClosedStartEnd, 0 + (W - 0)⟩ := by
    simp only [arNext]
    rw [if_neg (by omega), if_neg (by omega), if_neg (by omega), if_pos (by omega),
      if_neg (by omega), if_neg (by omega), if_neg (by omega)]
  have s2 : arNext ⟨0, W, L, .ClosedStartEnd, 0 + (W - 0)⟩ = .done := by
    simp only [arNext]
    rw [if_neg (by omega), if_pos (by omega)]
  rw [show (3 : Nat) = 2 + 1 from rfl, arRun_succ, s1]
  dsimp only
  rw [show (2 : Nat) = 1 + 1 from rfl, arRun_succ, s2]
  simp

theorem arRun_clamp_overhang {L W : Nat} {a : Int}
    (hW : 0 < W) (hWL : W ≤ L) (hLW : W + L ≤ u16Max) (h0 : 0 ≤ a) (haL : a ≤ L)
    (hover : (L : Int) < a + W) :
    arRun 3 ⟨a, W, L, .ClosedStartEnd, 0⟩
      = some [⟨a.toNat, 0, L - a.toNat⟩] := by
  have hstop : W - (a.toNat + (W - 0) - L) = L - a.toNat := by omega
  have s1 : arNext ⟨a, W, L, .ClosedStartEnd, 0⟩
      = .yield ⟨L - ((W - (a.toNat + (W - 0) - L)) - 0), 0, W - (a.toNat + (W - 0) - L)⟩
          ⟨(L : Int), W, L, .ClosedStartEnd, 0 + (W - 0)⟩ := by
    simp only [arNext]
    rw [if_neg (by omega), if_neg (by omega), if_neg (by omega), if_neg (by omega),
      if_pos (by omega), if_neg (by omega), if_neg (by omega), if_neg (by omega),
      if_neg (by omega), if_neg (by omega)]
  have s2 : arNext ⟨(L : Int), W, L, .ClosedStartEnd, 0 + (W - 0)⟩ = .done := by
    simp only [arNext]
    rw [if_neg (by omega), if_pos (by omega)]
  rw [show (3 : Nat) = 2 + 1 from rfl, arRun_succ, s1]
  dsimp only
  rw [show (2 : Nat) = 1 + 1 from rfl, arRun_succ, s2]
  rw [hstop]
  have hanch2 : L - (L - a.toNat - 0) = a.toNat := by omega
  rw [hanch2]
  rfl

theorem filter_range_eq_range2 (p : Nat → Bool) :
    ∀ (W b e : Nat), b ≤ e → e ≤ W →
      (∀ i, i < W → (p i = true ↔ (b ≤ i ∧ i < e))) →
      (List.range W).filter p = List.range' b (e - b) := by
  intro W
  induction W with
  | zero =>
    intro b e hbe heW hp
    have hb : b = 0 := by omega
    have he : e = 0 := by omega
    subst hb; subst he
    rfl
  | succ W ih =>
    intro b e hbe heW hp
    by_cases hW : e ≤ W
    · have hpW : p W = false := by
        cases hpw : p W with
        | false => rfl
        | true => have := (hp W (by omega)).1 hpw; omega
      rw [List.range_succ, List.filter_append,
        ih b e hbe hW (fun i hi => hp i (by omega))]
      simp [hpW]
    · have heW1 : e = W + 1 := by omega
      by_cases hbW : b ≤ W
      · have hpW : p W = true := (hp W (by omega)).2 (by omega)
        rw [List.range_succ, List.filter_append,
          ih b W hbW (le_refl W) (fun i hi => by rw [hp i (by omega)]; omega)]
        rw [heW1, show W + 1 - b = (W - b) + 1 from by omega, List.range'_concat]
        have h3 : b + 1 * (W - b) = W := by omega
        rw [h3]
        simp [hpW]
      · have hb : b = W + 1 := by omega
        rw [show e - b = 0 from by omega]
        show _ = []
        rw [List.filter_eq_nil_iff]
        intro i hi
        have hiW : i < W + 1 := List.mem_range.1 hi
        intro hpi
        have := (hp i hiW).1 hpi
        omega

/-- C3.  Counterexample to the literal claim.  First, with `ClosedStartEnd`
the yielded chunks do not partition the whole window: for window length 5
over a strip of length 7 anchored at -2 (the spec's own clamp scenario) the
single yielded chunk covers only window positions 2..5, i.e. 3 of the 5
window positions.  Second, the claimed anchor domain `-L <= anchor <= 2L`
is wrong for `WrappingStartEnd`: anchor -7 with window 4 and strip 7 lies
in that domain, yet `next()` panics (the `u16` subtraction
`general_animation_len - anchor.abs() - animation_offset` underflows), and
so does every anchor greater than `L` (here 8 > 7): the borrow-checked
domain is `-W <= anchor <= L` for wrapping and `-L <= anchor <= L` for
clamping. -/
theorem c3_counterexample :
    arRun 3 (ARState.new (-2) 5 7 .ClosedStartEnd) = some [⟨0, 2, 5⟩] ∧
    chunksJoined [⟨0, 2, 5⟩] = [2, 3, 4] ∧
    (List.range 5).length = 5 ∧
    arRun 3 (ARState.new (-7) 4 7 .WrappingStartEnd) = none ∧
    (-(7 : Int) ≤ -7 ∧ -7 ≤ 2 * (7 : Int)) ∧
    arRun 3 (ARState.new 8 4 7 .WrappingStartEnd) = none ∧
    (-(7 : Int) ≤ 8 ∧ 8 ≤ 2 * (7 : Int)) := by
  refine ⟨by decide, by decide, by decide, by decide, by decide, by decide, by decide⟩

/-- C3 (amended).  Over a strip of length `L` with window length `W`,
`0 < W ≤ L` and `W + L ≤ 65535`, one full enumeration of
`ActiveRangeIter` terminates without panicking and yields chunks whose
window sub-ranges are disjoint and in ascending order, as follows.
With `WrappingStartEnd` and `-W ≤ anchor ≤ L` the chunks partition the
entire window: their concatenated sub-ranges are exactly
`0, 1, ..., W-1`.  With `ClosedStartEnd` and `-L ≤ anchor ≤ L` the
concatenated sub-ranges are exactly the window positions `i` with
`0 ≤ anchor + i < L`, i.e. the positions that fall on the strip — the
off-strip positions are clipped, so the chunks partition the window only
when `0 ≤ anchor` and `anchor + W ≤ L`. -/
theorem range2_zero_append (m n : Nat) :
    List.range' 0 m ++ List.range' m n = List.range' 0 (m + n) := by
  have h := List.range'_append_1 0 m n
  rw [Nat.zero_add, Nat.add_comm n m] at h
  exact h

theorem c3_window_coverage (L W : Nat) (a : Int)
    (hW : 0 < W) (hWL : W ≤ L) (hLW : W + L ≤ u16Max) :
    ((-(W : Int) ≤ a ∧ a ≤ L) →
      ∃ cs, arRun 3 (ARState.new a W L .WrappingStartEnd) = some cs ∧
        chunksJoined cs = List.range W) ∧
    ((-(L : Int) ≤ a ∧ a ≤ L) →
      ∃ cs, arRun 3 (ARState.new a W L .ClosedStartEnd) = some cs ∧
        chunksJoined cs =
          (List.range W).filter
            (fun i : Nat => decide (0 ≤ a + (i : Int)) && decide (a + (i : Int) < (L : Int)))) := by
  have hL : L ≤ u16Max := by omega
  constructor
  · rintro ⟨hlo, hhi⟩
    by_cases hneg : a < 0
    · by_cases haW : a = -(W : Int)
      · refine ⟨_, arRun_wrap_negW hW hWL hL haW, ?_⟩
        have habs : a.natAbs = W := by omega
        simp [chunksJoined, habs, List.range_eq_range']
      · have hgt : -(W : Int) < a := by omega
        refine ⟨_, arRun_wrap_neg hW hWL hL hneg hgt, ?_⟩
        have habs : a.natAbs < W := by omega
        simp only [chunksJoined, List.map_cons, List.map_nil, List.flatten_cons,
          List.flatten_nil, List.append_nil, Nat.sub_zero]
        rw [range2_zero_append a.natAbs (W - a.natAbs),
          show a.natAbs + (W - a.natAbs) = W from by omega, List.range_eq_range']
    · push_neg at hneg
      by_cases hin : a + W ≤ L
      · refine ⟨_, arRun_inside .WrappingStartEnd hW hL hneg hin, ?_⟩
        simp [chunksJoined, List.range_eq_range']
      · push_neg at hin
        refine ⟨_, arRun_wrap_overhang hW hWL hLW hneg hhi hin, ?_⟩
        have hlt : a.toNat ≤ L := by omega
        simp only [chunksJoined, List.map_cons, List.map_nil, List.flatten_cons,
          List.flatten_nil, List.append_nil, Nat.sub_zero]
        rw [range2_zero_append (L - a.toNat) (W - (L - a.toNat)),
          show L - a.toNat + (W - (L - a.toNat)) = W from by omega, List.range_eq_range']
  · rintro ⟨hlo, hhi⟩
    by_cases hneg : a < 0
    · refine ⟨_, arRun_clamp_neg hW hWL hL hneg hlo, ?_⟩
      simp only [chunksJoined, List.map_cons, List.map_nil, List.flatten_cons,
        List.flatten_nil, List.append_nil]
      rw [filter_range_eq_range2
        (fun i : Nat => decide (0 ≤ a + (i : Int)) && decide (a + (i : Int) < (L : Int)))
        W (min a.natAbs W) W (by omega) (le_refl W)
        (fun i hi => by
          simp only [Bool.and_eq_true, decide_eq_true_eq]
          omega)]
      by_cases hc : a.natAbs ≤ W
      · rw [show min a.natAbs W = a.natAbs from by omega]
      · rw [show min a.natAbs W = W from by omega,
          show (W - W : Nat) = 0 from by omega,
          show (W - a.natAbs : Nat) = 0 from by omega]
        rfl
    · push_neg at hneg
      by_cases hin : a + W ≤ L
      · refine ⟨_, arRun_inside .ClosedStartEnd hW hL hneg hin, ?_⟩
        simp only [chunksJoined, List.map_cons, List.map_nil, List.flatten_cons,
          List.flatten_nil, List.append_nil, Nat.sub_zero]
        rw [filter_range_eq_range2
          (fun i : Nat => decide (0 ≤ a + (i : Int)) && decide (a + (i : Int) < (L : Int)))
          W 0 W (by omega) (le_refl W)
          (fun i hi => by
            simp only [Bool.and_eq_true, decide_eq_true_eq]
            omega)]
        rw [Nat.sub_zero]
      · push_neg at hin
        refine ⟨_, arRun_clamp_overhang hW hWL hLW hneg hhi hin, ?_⟩
        simp only [chunksJoined, List.map_cons, List.map_nil, List.flatten_cons,
          List.flatten_nil, List.append_nil, Nat.sub_zero]
        rw [filter_range_eq_range2
          (fun i : Nat => decide (0 ≤ a + (i : Int)) && decide (a + (i : Int) < (L : Int)))
          W 0 (L - a.toNat) (by omega) (by omega)
          (fun i hi => by
            simp only [Bool.and_eq_true, decide_eq_true_eq]
            omega)]
        rw [Nat.sub_zero]

theorem c3_window_coverage_witness :
    (0 < 4 ∧ 4 ≤ 7 ∧ 4 + 7 ≤ u16Max) ∧
    (∃ cs, arRun 3 (ARState.new (-2) 4 7 .WrappingStartEnd) = some cs ∧
      chunksJoined cs = List.range 4) ∧
    (∃ cs, arRun 3 (ARState.new (-2) 4 7 .ClosedStartEnd) = some cs ∧
      chunksJoined cs =
        (List.range 4).filter
          (fun i : Nat => decide (0 ≤ -2 + (i : Int)) && decide (-2 + (i : Int) < (7 : Int)))) :=
  ⟨⟨by decide, by decide, by decide⟩,
   (c3_window_coverage 7 4 (-2) (by decide) (by decide) (by decide)).1
     ⟨by decide, by decide⟩,
   (c3_window_coverage 7 4 (-2) (by decide) (by decide) (by decide)).2
     ⟨by decide, by decide⟩⟩
